import Mathlib

/-!
Verification development for the chunking engine of `functions/chroma_setup.py`
(class `ChromaVectorDatabase`).  Text is modelled as `List Char` (Python
strings are sequences of code points).  The regular-expression passes of the
source are embedded as explicit left-to-right scans, matching Python `re.sub`
and `re.split` semantics (leftmost, non-overlapping matches, greedy
quantifiers).  Whitespace and word characters are modelled over the ASCII
range, which covers every character class the source's patterns use.  All
definitions are structurally recursive so that concrete inputs evaluate.
-/

namespace ChromaSetup

/-- Python `\s` (ASCII range): space, tab, newline, carriage return,
vertical tab, form feed. -/
def isWS (c : Char) : Bool :=
  c = ' ' || c = '\t' || c = '\n' || c = '\r' || c = '\x0b' || c = '\x0c'

/-- Python `\w` (ASCII range), used for the `\b` word-boundary test. -/
def isWordChar (c : Char) : Bool :=
  c.isAlpha || c.isDigit || c = '_'

/-- ASCII decimal digit, for the citation pattern `\[\d+\]`. -/
def isDigitChar (c : Char) : Bool :=
  '0' ≤ c && c ≤ '9'

/-- Drop trailing whitespace (the right half of Python `str.strip()`). -/
def dropTrailingWS : List Char → List Char
  | [] => []
  | c :: cs =>
    let r := dropTrailingWS cs
    if r = [] then (if isWS c then [] else [c]) else c :: r

/-- Python `str.strip()`: remove leading and trailing whitespace. -/
def strip (l : List Char) : List Char :=
  dropTrailingWS (l.dropWhile isWS)

/-- Scanner for `re.sub(r'\s+', ' ', text)`.  The flag records whether the
scan is inside a whitespace run whose single replacement space was already
emitted. -/
def collapseWSGo : Bool → List Char → List Char
  | _, [] => []
  | inRun, c :: cs =>
    if isWS c then
      if inRun then collapseWSGo true cs
      else ' ' :: collapseWSGo true cs
    else c :: collapseWSGo false cs

/-- `re.sub(r'\s+', ' ', text)`: collapse every maximal whitespace run into
a single space. -/
def collapseWS (l : List Char) : List Char := collapseWSGo false l

/-- Scanner for `re.sub(r'\[\d+\]', '', text)`.  A positive counter skips
the remainder of a citation match already deleted from the output.  The
greedy `\d+` must be followed immediately by `]` for the pattern to match
at a `[`. -/
def removeCitesGo : Nat → List Char → List Char
  | _, [] => []
  | skip+1, _ :: cs => removeCitesGo skip cs
  | 0, c :: cs =>
    if c = '[' ∧ cs.takeWhile isDigitChar ≠ [] ∧
        (cs.drop (cs.takeWhile isDigitChar).length).head? = some ']' then
      removeCitesGo ((cs.takeWhile isDigitChar).length + 1) cs
    else c :: removeCitesGo 0 cs

/-- `re.sub(r'\[\d+\]', '', text)`: delete every bracketed digit run. -/
def removeCites (l : List Char) : List Char := removeCitesGo 0 l

/-- `re.sub(r'â€™', "'", text)`: repair the mis-encoded curly apostrophe. -/
def fixApos : List Char → List Char
  | 'â' :: '€' :: '™' :: rest => '\'' :: fixApos rest
  | c :: cs => c :: fixApos cs
  | [] => []

/-- `re.sub(r'â€œ|â€', '"', text)`: repair mis-encoded curly quotes.  The
alternation tries the three-character form first at each position. -/
def fixQuotes : List Char → List Char
  | 'â' :: '€' :: 'œ' :: rest => '"' :: fixQuotes rest
  | 'â' :: '€' :: rest => '"' :: fixQuotes rest
  | c :: cs => c :: fixQuotes cs
  | [] => []

/-- Scanner for `re.sub(r'\.{3,}', '...', text)`.  The flag records whether
the scan is inside a period run whose three-dot replacement was already
emitted, so that further periods of the run are dropped. -/
def fixDotsGo : Bool → List Char → List Char
  | _, [] => []
  | true, '.' :: cs => fixDotsGo true cs
  | true, c :: cs => c :: fixDotsGo false cs
  | false, '.' :: '.' :: '.' :: rest => '.' :: '.' :: '.' :: fixDotsGo true rest
  | false, c :: cs => c :: fixDotsGo false cs

/-- `re.sub(r'\.{3,}', '...', text)`: normalize runs of three or more
periods to exactly three. -/
def fixDots (l : List Char) : List Char := fixDotsGo false l

/-- `_clean_text`: the five normalization passes of the source, in order,
followed by `strip()`. -/
def clean_text (t : List Char) : List Char :=
  strip (fixDots (fixQuotes (fixApos (removeCites (collapseWS t)))))

/-! ### `_improved_sentence_split` -/

/-- The abbreviation list of `_improved_sentence_split`, in source order.
In the pattern `f'\\b{abbr}\\.'` a `.` inside an abbreviation is the regex
any-character metacharacter, while the final escaped `\.` is a literal
period. -/
def abbreviations : List String :=
  ["Mr", "Mrs", "Ms", "Dr", "Prof", "Sr", "Jr", "Inc", "Ltd", "Corp",
   "vs", "etc", "i.e", "e.g", "a.m", "p.m", "Ph.D", "M.D",
   "Gov", "Sen", "Rep", "Pres", "VP", "CEO", "CFO"]

/-- Match the regex `{abbr}\.` (case-insensitive) at the head of the text:
each pattern character matches case-insensitively, except `.` which matches
any character other than a newline; the abbreviation must be followed by a
literal period. -/
def matchAbbr : List Char → List Char → Bool
  | [], '.' :: _ => true
  | [], _ => false
  | _ :: _, [] => false
  | p :: ps, c :: cs =>
    if p = '.' then (if c = '\n' then false else matchAbbr ps cs)
    else if c.toLower = p.toLower then matchAbbr ps cs else false

/-- Scanner for `re.sub(f'\\b{abbr}\\.', f'{abbr}<DOT>', text, flags=re.IGNORECASE)`.
`skip` counts characters of an accepted match still to be consumed, `prev`
is the previous character of the original text (for the `\b` test; every
abbreviation starts with a word character, so the boundary holds exactly
when the previous character is absent or not a word character).  The
replacement emits the abbreviation in its canonical source casing. -/
def subAbbrGo (abbr : List Char) : Nat → Option Char → List Char → List Char
  | _, _, [] => []
  | skip+1, _, c :: cs => subAbbrGo abbr skip (some c) cs
  | 0, prev, c :: cs =>
    if (match prev with | none => true | some p => !isWordChar p) &&
        matchAbbr abbr (c :: cs) then
      abbr ++ '<' :: 'D' :: 'O' :: 'T' :: '>' :: subAbbrGo abbr abbr.length (some c) cs
    else c :: subAbbrGo abbr 0 (some c) cs

/-- One protection pass for a single abbreviation. -/
def subAbbr (abbr : List Char) (t : List Char) : List Char :=
  subAbbrGo abbr 0 none t

/-- All protection passes, applied sequentially in source order. -/
def protectAbbrevs (t : List Char) : List Char :=
  (abbreviations.map String.data).foldl (fun acc ab => subAbbr ab acc) t

/-- `.`, `!` or `?`: the sentence-final punctuation of the split pattern. -/
def isEndPunct (c : Char) : Bool :=
  c = '.' || c = '!' || c = '?'

/-- The `[A-Z]` class of the split pattern (ASCII uppercase only). -/
def isUpperAZ (c : Char) : Bool :=
  'A' ≤ c && c ≤ 'Z'

/-- Scanner for `re.split(r'(?<=[.!?])\s+(?=[A-Z])', text)`.  `prev` is the
previous character, `pend` holds (reversed) a candidate separator run of
whitespace opened after sentence-final punctuation, `acc` holds the current
piece reversed.  The greedy `\s+` with the uppercase lookahead matches
exactly when the character after the maximal whitespace run is `[A-Z]`;
on failure the run stays inside the current piece, and no new match can
start inside it because its characters are whitespace. -/
def splitSentGo : Option Char → List Char → List Char → List Char → List (List Char)
  | _, pend, [], acc => [(pend ++ acc).reverse]
  | prev, pend, c :: cs, acc =>
    if pend.isEmpty then
      if isWS c && (match prev with | some p => isEndPunct p | none => false) then
        splitSentGo prev [c] cs acc
      else splitSentGo (some c) [] cs (c :: acc)
    else
      if isWS c then splitSentGo prev (c :: pend) cs acc
      else if isUpperAZ c then acc.reverse :: splitSentGo (some c) [] cs [c]
      else splitSentGo (some c) [] cs (c :: (pend ++ acc))

/-- `re.split(r'(?<=[.!?])\s+(?=[A-Z])', text)`. -/
def splitSent (t : List Char) : List (List Char) :=
  splitSentGo none [] t []

/-- Scanner for `re.split(r'\n\s*\n', text)`.  Once a newline opens a
candidate separator, `pendAll` holds the run so far (reversed), `seen`
records whether a second newline occurred, and `tailAfter` holds (reversed)
the whitespace after the last newline, which the greedy `\s*` leaves to the
following piece. -/
def splitParaGo : Bool → List Char → List Char → List Char → List Char → List (List Char)
  | seen, pendAll, tailAfter, [], acc =>
    if pendAll.isEmpty then [acc.reverse]
    else if seen then [acc.reverse, tailAfter.reverse]
    else [(pendAll ++ acc).reverse]
  | seen, pendAll, tailAfter, c :: cs, acc =>
    if pendAll.isEmpty then
      if c = '\n' then splitParaGo false ['\n'] [] cs acc
      else splitParaGo false [] [] cs (c :: acc)
    else
      if c = '\n' then splitParaGo true (c :: pendAll) [] cs acc
      else if isWS c then splitParaGo seen (c :: pendAll) (c :: tailAfter) cs acc
      else if seen then acc.reverse :: splitParaGo false [] [] cs (c :: tailAfter)
      else splitParaGo false [] [] cs (c :: (pendAll ++ acc))

/-- `re.split(r'\n\s*\n', text)`. -/
def splitPara (t : List Char) : List (List Char) :=
  splitParaGo false [] [] t []

/-- `part.replace('<DOT>', '.')`: restore protected abbreviation periods. -/
def replaceDot : List Char → List Char
  | '<' :: 'D' :: 'O' :: 'T' :: '>' :: rest => '.' :: replaceDot rest
  | c :: cs => c :: replaceDot cs
  | [] => []

/-- `_improved_sentence_split`: protect abbreviations, split on sentence
endings, split surviving paragraph breaks, keep the pieces whose `strip()`
is non-empty, restoring `<DOT>` and stripping each kept piece. -/
def improved_sentence_split (t : List Char) : List (List Char) :=
  (splitSent (protectAbbrevs t)).foldl
    (fun res sentence =>
      (splitPara sentence).foldl
        (fun res2 part =>
          if strip part = [] then res2
          else res2 ++ [strip (replaceDot part)])
        res)
    []

/-! ### `_count_tokens` and `_smart_chunk_text` -/

/-- The tokenizer state of the class: `some f` models a loaded encoding,
where `f text` is the length of `tokenizer.encode(text)` (the encoding
itself is an external collaborator, so it is a parameter); `none` models
the fallback after `tiktoken.get_encoding` failed. -/
def count_tokens (tok : Option (List Char → Nat)) (t : List Char) : Nat :=
  match tok with
  | some f => f t
  | none => t.length / 4

/-- `self.MAX_TOKENS_PER_CHUNK`. -/
def MAX_TOKENS_PER_CHUNK : Nat := 400

/-- `self.OVERLAP_TOKENS`. -/
def OVERLAP_TOKENS : Nat := 50

/-- Running token total of a sentence buffer. -/
def sumTok (tc : List Char → Nat) : List (List Char) → Nat
  | [] => 0
  | s :: rest => tc s + sumTok tc rest

/-- The overlap loop of `_smart_chunk_text`: walk `reversed(current_sentences)`,
collecting sentences while the running total stays within `ovT`, and stop at
the first sentence that would exceed it.  Returns the collected sentences
(latest first, as walked) together with the accumulated token total. -/
def overlapWalk (tc : List Char → Nat) (ovT : Nat) :
    List (List Char) → Nat → List (List Char) × Nat
  | [], acc => ([], acc)
  | s :: rest, acc =>
    if acc + tc s ≤ ovT then
      let r := overlapWalk tc ovT rest (acc + tc s)
      (s :: r.1, r.2)
    else ([], acc)

/-- The overlap seed in original order (the source walks the reversed buffer
and inserts each kept sentence at position 0). -/
def overlapSeed (tc : List Char → Nat) (ovT : Nat) (cur : List (List Char)) :
    List (List Char) :=
  ((overlapWalk tc ovT cur.reverse 0).1).reverse

/-- The sentence loop of `_smart_chunk_text`, emitting the finalized sentence
buffers in order.  `cur` is `current_sentences` and `curTok` is
`current_tokens`.  Oversized sentences are skipped; when a sentence would
push the non-empty buffer past `maxT` the buffer is emitted and the next
buffer starts as overlap seed plus the sentence, with `curTok` set to the
walk's accumulated total plus the sentence's count. -/
def chunkLoop (tc : List Char → Nat) (maxT ovT : Nat) :
    List (List Char) → List (List Char) → Nat → List (List (List Char))
  | [], cur, _ => if cur = [] then [] else [cur]
  | s :: rest, cur, curTok =>
    if maxT < tc s then chunkLoop tc maxT ovT rest cur curTok
    else if maxT < curTok + tc s ∧ cur ≠ [] then
      cur :: chunkLoop tc maxT ovT rest
        ((overlapWalk tc ovT cur.reverse 0).1.reverse ++ [s])
        ((overlapWalk tc ovT cur.reverse 0).2 + tc s)
    else chunkLoop tc maxT ovT rest (cur ++ [s]) (curTok + tc s)

/-- `' '.join(current_sentences)`. -/
def joinSp : List (List Char) → List Char
  | [] => []
  | [c] => c
  | c :: rest => c ++ ' ' :: joinSp rest

/-- The sentence sequence `_smart_chunk_text` chunks: the text is cleaned
and then split. -/
def sentencesOf (text : List Char) : List (List Char) :=
  improved_sentence_split (clean_text text)

/-- The finalized sentence buffers of `_smart_chunk_text` on a text, for
the chunking parameters of the source. -/
def chunkListsOf (tok : Option (List Char → Nat)) (text : List Char) :
    List (List (List Char)) :=
  chunkLoop (count_tokens tok) MAX_TOKENS_PER_CHUNK OVERLAP_TOKENS
    (sentencesOf text) [] 0

/-- `_smart_chunk_text`: clean, split, return `[]` when there are no
sentences, otherwise run the loop, join each finalized buffer with single
spaces, and keep the chunks whose `strip()` is non-empty. -/
def smart_chunk_text (tok : Option (List Char → Nat)) (text : List Char) :
    List (List Char) :=
  if sentencesOf text = [] then []
  else ((chunkListsOf tok text).map joinSp).filter (fun c => decide (strip c ≠ []))

/-! ### Properties of the chunk loop -/

/-- Token-recomputing form of the sentence loop, used to state the
`current_tokens` invariant: it recomputes the buffer's token sum at each
step instead of carrying the running total. -/
def chunkLoopSpec (tc : List Char → Nat) (maxT ovT : Nat) :
    List (List Char) → List (List Char) → List (List (List Char))
  | [], cur => if cur = [] then [] else [cur]
  | s :: rest, cur =>
    if maxT < tc s then chunkLoopSpec tc maxT ovT rest cur
    else if maxT < sumTok tc cur + tc s ∧ cur ≠ [] then
      cur :: chunkLoopSpec tc maxT ovT rest (overlapSeed tc ovT cur ++ [s])
    else chunkLoopSpec tc maxT ovT rest (cur ++ [s])

/-- A string is "inked" when it contains a non-whitespace character; exactly
the strings whose `strip()` is truthy. -/
def hasInk (l : List Char) : Bool :=
  l.any (fun c => !isWS c)

/-- Bool-valued occurrence test: `occurs pat l` holds exactly when `pat`
is a contiguous substring of `l`. -/
def occurs (pat : List Char) : List Char → Bool
  | [] => decide (pat = [])
  | c :: cs => pat.isPrefixOf (c :: cs) || occurs pat cs

/-- Bool-valued test for two adjacent whitespace characters. -/
def hasWW : List Char → Bool
  | a :: b :: rest => (isWS a && isWS b) || hasWW (b :: rest)
  | _ => false

/-- Whitespace discipline after collapsing: every whitespace character is a
plain space. -/
def wsSpace (l : List Char) : Bool :=
  l.all (fun c => !isWS c || c == ' ')

theorem sumTok_append (tc : List Char → Nat) (l : List (List Char)) (s : List Char) :
    sumTok tc (l ++ [s]) = sumTok tc l + tc s := by
  induction l with
  | nil => simp [sumTok]
  | cons a t ih =>
    rw [List.cons_append]
    simp only [sumTok]
    rw [ih]
    omega

theorem sumTok_reverse (tc : List Char → Nat) (l : List (List Char)) :
    sumTok tc l.reverse = sumTok tc l := by
  induction l with
  | nil => rfl
  | cons a t ih =>
    rw [List.reverse_cons, sumTok_append, ih]
    simp only [sumTok]
    omega

theorem overlapWalk_snd (tc : List Char → Nat) (ovT : Nat) :
    ∀ (l : List (List Char)) (acc : Nat),
      (overlapWalk tc ovT l acc).2 = acc + sumTok tc (overlapWalk tc ovT l acc).1 := by
  intro l
  induction l with
  | nil => intro acc; simp [overlapWalk, sumTok]
  | cons s rest ih =>
    intro acc
    by_cases h : acc + tc s ≤ ovT
    · simp only [overlapWalk, if_pos h, sumTok, ih (acc + tc s)]; omega
    · simp [overlapWalk, if_neg h, sumTok]

theorem overlapWalk_le (tc : List Char → Nat) (ovT : Nat) :
    ∀ (l : List (List Char)) (acc : Nat), acc ≤ ovT →
      (overlapWalk tc ovT l acc).2 ≤ ovT := by
  intro l
  induction l with
  | nil => intro acc h; simpa [overlapWalk] using h
  | cons s rest ih =>
    intro acc h
    by_cases hc : acc + tc s ≤ ovT
    · simpa [overlapWalk, if_pos hc] using ih (acc + tc s) hc
    · simpa [overlapWalk, if_neg hc] using h

theorem overlapSeed_sum_le (tc : List Char → Nat) (ovT : Nat) (cur : List (List Char)) :
    sumTok tc (overlapSeed tc ovT cur) ≤ ovT := by
  have hsnd := overlapWalk_snd tc ovT cur.reverse 0
  have hle := overlapWalk_le tc ovT cur.reverse 0 (Nat.zero_le _)
  simp only [Nat.zero_add] at hsnd
  simpa [overlapSeed, sumTok_reverse, ← hsnd] using hle

theorem overlapWalk_mem (tc : List Char → Nat) (ovT : Nat) :
    ∀ (l : List (List Char)) (acc : Nat) (x : List Char),
      x ∈ (overlapWalk tc ovT l acc).1 → x ∈ l := by
  intro l
  induction l with
  | nil => intro acc x h; simp [overlapWalk] at h
  | cons s rest ih =>
    intro acc x h
    by_cases hc : acc + tc s ≤ ovT
    · simp only [overlapWalk, if_pos hc, List.mem_cons] at h
      rcases h with h | h
      · exact List.mem_cons.mpr (Or.inl h)
      · exact List.mem_cons_of_mem _ (ih _ _ h)
    · simp [overlapWalk, if_neg hc] at h

theorem overlapSeed_mem (tc : List Char → Nat) (ovT : Nat) (cur : List (List Char))
    (x : List Char) (h : x ∈ overlapSeed tc ovT cur) : x ∈ cur := by
  simp only [overlapSeed, List.mem_reverse] at h
  have := overlapWalk_mem tc ovT cur.reverse 0 x h
  simpa using this

/-- The `current_tokens` loop invariant: running the source loop with the
carried total equal to the buffer's token sum agrees everywhere with the
loop that recomputes the sum, so both branches preserve the equality
`current_tokens = Σ count(s) for s in current_sentences`. -/
theorem chunkLoop_eq_spec (tc : List Char → Nat) (maxT ovT : Nat) :
    ∀ (ss cur : List (List Char)),
      chunkLoop tc maxT ovT ss cur (sumTok tc cur) = chunkLoopSpec tc maxT ovT ss cur := by
  intro ss
  induction ss with
  | nil => intro cur; rfl
  | cons s rest ih =>
    intro cur
    simp only [chunkLoop, chunkLoopSpec]
    by_cases h1 : maxT < tc s
    · simp only [if_pos h1, ih]
    · simp only [if_neg h1]
      by_cases h2 : maxT < sumTok tc cur + tc s ∧ cur ≠ []
      · rw [if_pos h2, if_pos h2]
        have hsnd := overlapWalk_snd tc ovT cur.reverse 0
        simp only [Nat.zero_add] at hsnd
        have harg : (overlapWalk tc ovT cur.reverse 0).2 + tc s =
            sumTok tc ((overlapWalk tc ovT cur.reverse 0).1.reverse ++ [s]) := by
          rw [sumTok_append, sumTok_reverse, hsnd]
        rw [harg]
        have hrec := ih ((overlapWalk tc ovT cur.reverse 0).1.reverse ++ [s])
        rw [hrec]
        simp [overlapSeed]
      · rw [if_neg h2, if_neg h2]
        have harg : sumTok tc cur + tc s = sumTok tc (cur ++ [s]) :=
          (sumTok_append tc cur s).symm
        rw [harg]
        exact ih _

theorem chunkListsOf_eq_spec (tok : Option (List Char → Nat)) (text : List Char) :
    chunkListsOf tok text =
      chunkLoopSpec (count_tokens tok) MAX_TOKENS_PER_CHUNK OVERLAP_TOKENS
        (sentencesOf text) [] := by
  have h := chunkLoop_eq_spec (count_tokens tok) MAX_TOKENS_PER_CHUNK OVERLAP_TOKENS
    (sentencesOf text) []
  simpa [chunkListsOf, sumTok] using h

/-- Every finalized buffer is non-empty, and its sentences come from the
initial buffer or the remaining sentence stream. -/
theorem chunkLoopSpec_mem (tc : List Char → Nat) (maxT ovT : Nat) :
    ∀ (ss cur : List (List Char)), ∀ c ∈ chunkLoopSpec tc maxT ovT ss cur,
      c ≠ [] ∧ ∀ s ∈ c, s ∈ cur ∨ s ∈ ss := by
  intro ss
  induction ss with
  | nil =>
    intro cur c hc
    by_cases h : cur = []
    · simp [chunkLoopSpec, h] at hc
    · simp only [chunkLoopSpec, if_neg h, List.mem_singleton] at hc
      subst hc
      exact ⟨h, fun s hs => Or.inl hs⟩
  | cons s rest ih =>
    intro cur c hc
    simp only [chunkLoopSpec] at hc
    by_cases h1 : maxT < tc s
    · rw [if_pos h1] at hc
      rcases ih cur c hc with ⟨hne, hmem⟩
      exact ⟨hne, fun x hx => (hmem x hx).imp_right (List.mem_cons_of_mem _)⟩
    · rw [if_neg h1] at hc
      by_cases h2 : maxT < sumTok tc cur + tc s ∧ cur ≠ []
      · rw [if_pos h2] at hc
        rcases List.mem_cons.mp hc with hc' | hc'
        · subst hc'
          exact ⟨h2.2, fun x hx => Or.inl hx⟩
        · rcases ih _ c hc' with ⟨hne, hmem⟩
          refine ⟨hne, fun x hx => ?_⟩
          rcases hmem x hx with hx' | hx'
          · rcases List.mem_append.mp hx' with hx'' | hx''
            · exact Or.inl (overlapSeed_mem _ _ _ _ hx'')
            · rw [List.mem_singleton] at hx''
              exact Or.inr (hx'' ▸ List.mem_cons_self _ _)
          · exact Or.inr (List.mem_cons_of_mem _ hx')
      · rw [if_neg h2] at hc
        rcases ih _ c hc with ⟨hne, hmem⟩
        refine ⟨hne, fun x hx => ?_⟩
        rcases hmem x hx with hx' | hx'
        · rcases List.mem_append.mp hx' with hx'' | hx''
          · exact Or.inl hx''
          · rw [List.mem_singleton] at hx''
            exact Or.inr (hx'' ▸ List.mem_cons_self _ _)
        · exact Or.inr (List.mem_cons_of_mem _ hx')

/-- Token bounds of every finalized buffer: the per-sentence sum stays within
`maxT + ovT` (the overlap seed can push a fresh buffer past `maxT` alone) and
every sentence placed in a buffer is individually within `maxT`. -/
theorem chunkLoopSpec_bounds (tc : List Char → Nat) (maxT ovT : Nat) :
    ∀ (ss cur : List (List Char)),
      sumTok tc cur ≤ maxT + ovT → (∀ s ∈ cur, tc s ≤ maxT) →
      ∀ c ∈ chunkLoopSpec tc maxT ovT ss cur,
        sumTok tc c ≤ maxT + ovT ∧ ∀ s ∈ c, tc s ≤ maxT := by
  intro ss
  induction ss with
  | nil =>
    intro cur hsum hall c hc
    by_cases h : cur = []
    · simp [chunkLoopSpec, h] at hc
    · simp only [chunkLoopSpec, if_neg h, List.mem_singleton] at hc
      subst hc; exact ⟨hsum, hall⟩
  | cons s rest ih =>
    intro cur hsum hall c hc
    simp only [chunkLoopSpec] at hc
    by_cases h1 : maxT < tc s
    · rw [if_pos h1] at hc
      exact ih cur hsum hall c hc
    · rw [if_neg h1] at hc
      push_neg at h1
      by_cases h2 : maxT < sumTok tc cur + tc s ∧ cur ≠ []
      · rw [if_pos h2] at hc
        rcases List.mem_cons.mp hc with hc' | hc'
        · subst hc'; exact ⟨hsum, hall⟩
        · refine ih _ ?_ ?_ c hc'
          · rw [sumTok_append]
            have := overlapSeed_sum_le tc ovT cur
            omega
          · intro x hx
            rcases List.mem_append.mp hx with hx' | hx'
            · exact hall x (overlapSeed_mem _ _ _ _ hx')
            · rw [List.mem_singleton] at hx'
              rw [hx']
              exact h1
      · rw [if_neg h2] at hc
        refine ih _ ?_ ?_ c hc
        · rw [sumTok_append]
          by_cases hne : cur = []
          · subst hne
            simp only [sumTok]
            omega
          · have : ¬ maxT < sumTok tc cur + tc s := fun h => h2 ⟨h, hne⟩
            omega
        · intro x hx
          rcases List.mem_append.mp hx with hx' | hx'
          · exact hall x hx'
          · rw [List.mem_singleton] at hx'
            rw [hx']
            exact h1

/-- The first buffer emitted from a scan state extends the current buffer. -/
theorem chunkLoopSpec_head_pre (tc : List Char → Nat) (maxT ovT : Nat) :
    ∀ (ss cur c : List (List Char)) (out : List (List (List Char))),
      chunkLoopSpec tc maxT ovT ss cur = c :: out → cur <+: c := by
  intro ss
  induction ss with
  | nil =>
    intro cur c out h
    by_cases hne : cur = []
    · simp [chunkLoopSpec, hne] at h
    · simp only [chunkLoopSpec, if_neg hne, List.cons.injEq] at h
      exact h.1 ▸ List.prefix_refl cur
  | cons s rest ih =>
    intro cur c out h
    simp only [chunkLoopSpec] at h
    by_cases h1 : maxT < tc s
    · rw [if_pos h1] at h; exact ih _ _ _ h
    · rw [if_neg h1] at h
      by_cases h2 : maxT < sumTok tc cur + tc s ∧ cur ≠ []
      · rw [if_pos h2] at h
        rw [List.cons.injEq] at h
        exact h.1 ▸ List.prefix_refl cur
      · rw [if_neg h2] at h
        exact (List.prefix_append cur [s]).trans (ih _ _ _ h)

/-- Consecutive finalized buffers: each one (after the first) starts with the
overlap seed computed from its predecessor. -/
theorem chunkLoopSpec_chain (tc : List Char → Nat) (maxT ovT : Nat) :
    ∀ (ss cur : List (List Char)),
      List.Chain' (fun a b => overlapSeed tc ovT a <+: b)
        (chunkLoopSpec tc maxT ovT ss cur) := by
  intro ss
  induction ss with
  | nil =>
    intro cur
    by_cases h : cur = []
    · simp [chunkLoopSpec, h]
    · simp only [chunkLoopSpec, if_neg h]
      exact List.chain'_singleton cur
  | cons s rest ih =>
    intro cur
    simp only [chunkLoopSpec]
    by_cases h1 : maxT < tc s
    · rw [if_pos h1]; exact ih cur
    · rw [if_neg h1]
      by_cases h2 : maxT < sumTok tc cur + tc s ∧ cur ≠ []
      · rw [if_pos h2]
        rcases hout : chunkLoopSpec tc maxT ovT rest (overlapSeed tc ovT cur ++ [s])
          with _ | ⟨c, out⟩
        · simp
        · rw [List.chain'_cons]
          constructor
          · exact (List.prefix_append _ [s]).trans
              (chunkLoopSpec_head_pre tc maxT ovT _ _ _ _ hout)
          · rw [← hout]
            exact ih (overlapSeed tc ovT cur ++ [s])
      · rw [if_neg h2]
        exact ih (cur ++ [s])

/-- Any sentence of the current buffer ends up in some finalized buffer. -/
theorem chunkLoopSpec_flat_of_cur (tc : List Char → Nat) (maxT ovT : Nat) :
    ∀ (ss cur : List (List Char)) (s : List Char), s ∈ cur →
      s ∈ (chunkLoopSpec tc maxT ovT ss cur).flatten := by
  intro ss
  induction ss with
  | nil =>
    intro cur s hs
    have hne : cur ≠ [] := by rintro rfl; simp at hs
    simp only [chunkLoopSpec, if_neg hne]
    simpa using hs
  | cons s0 rest ih =>
    intro cur s hs
    simp only [chunkLoopSpec]
    by_cases h1 : maxT < tc s0
    · rw [if_pos h1]; exact ih cur s hs
    · rw [if_neg h1]
      by_cases h2 : maxT < sumTok tc cur + tc s0 ∧ cur ≠ []
      · rw [if_pos h2]
        simp only [List.flatten_cons, List.mem_append]
        exact Or.inl hs
      · rw [if_neg h2]
        exact ih _ s (List.mem_append.mpr (Or.inl hs))

/-- Completeness of the loop: every sentence of the stream whose token count
is within `maxT` lands in some finalized buffer. -/
theorem chunkLoopSpec_flat_complete (tc : List Char → Nat) (maxT ovT : Nat) :
    ∀ (ss cur : List (List Char)) (s : List Char), s ∈ ss → tc s ≤ maxT →
      s ∈ (chunkLoopSpec tc maxT ovT ss cur).flatten := by
  intro ss
  induction ss with
  | nil => intro cur s hs; simp at hs
  | cons s0 rest ih =>
    intro cur s hs hle
    rcases List.mem_cons.mp hs with rfl | hs'
    · simp only [chunkLoopSpec]
      rw [if_neg (by omega)]
      by_cases h2 : maxT < sumTok tc cur + tc s ∧ cur ≠ []
      · rw [if_pos h2]
        simp only [List.flatten_cons, List.mem_append]
        exact Or.inr (chunkLoopSpec_flat_of_cur tc maxT ovT rest _ s
          (List.mem_append.mpr (Or.inr (by simp))))
      · rw [if_neg h2]
        exact chunkLoopSpec_flat_of_cur tc maxT ovT rest _ s
          (List.mem_append.mpr (Or.inr (by simp)))
    · simp only [chunkLoopSpec]
      by_cases h1 : maxT < tc s0
      · rw [if_pos h1]; exact ih cur s hs' hle
      · rw [if_neg h1]
        by_cases h2 : maxT < sumTok tc cur + tc s0 ∧ cur ≠ []
        · rw [if_pos h2]
          simp only [List.flatten_cons, List.mem_append]
          exact Or.inr (ih _ s hs' hle)
        · rw [if_neg h2]
          exact ih _ s hs' hle

/-- With `overlap_tokens = 0` and positive per-sentence counts the seed is
always empty. -/
theorem overlapSeed_pos_nil (tc : List Char → Nat) (cur : List (List Char))
    (h : ∀ s ∈ cur, 0 < tc s) : overlapSeed tc 0 cur = [] := by
  rcases hrev : cur.reverse with _ | ⟨s, t⟩
  · simp [overlapSeed, hrev, overlapWalk]
  · have hs : s ∈ cur := by
      rw [← List.mem_reverse, hrev]; simp
    have hc : tc s ≠ 0 := by have := h s hs; omega
    simp [overlapSeed, hrev, overlapWalk, hc]

/-- With `overlap_tokens = 0` and positive per-sentence counts the finalized
buffers concatenate to the current buffer followed by exactly the kept
(non-oversized) sentences: each sentence occurrence lands in exactly one
buffer. -/
theorem chunkLoopSpec_flat_zero_ov (tc : List Char → Nat) (maxT : Nat) :
    ∀ (ss cur : List (List Char)),
      (∀ s ∈ cur, 0 < tc s) → (∀ s ∈ ss, 0 < tc s) →
      (chunkLoopSpec tc maxT 0 ss cur).flatten =
        cur ++ ss.filter (fun s => decide (tc s ≤ maxT)) := by
  intro ss
  induction ss with
  | nil =>
    intro cur _ _
    by_cases h : cur = []
    · simp [chunkLoopSpec, h]
    · simp [chunkLoopSpec, if_neg h]
  | cons s rest ih =>
    intro cur hcur hss
    have hs0 : 0 < tc s := hss s (List.mem_cons_self _ _)
    have hrest : ∀ x ∈ rest, 0 < tc x := fun x hx => hss x (List.mem_cons_of_mem _ hx)
    simp only [chunkLoopSpec]
    by_cases h1 : maxT < tc s
    · rw [if_pos h1, ih cur hcur hrest]
      have hd : decide (tc s ≤ maxT) = false := by
        simp only [decide_eq_false_iff_not]
        omega
      rw [List.filter_cons, hd]
      simp
    · rw [if_neg h1]
      push_neg at h1
      have hkeep : decide (tc s ≤ maxT) = true := by simpa using h1
      by_cases h2 : maxT < sumTok tc cur + tc s ∧ cur ≠ []
      · rw [if_pos h2]
        rw [overlapSeed_pos_nil tc cur hcur]
        simp only [List.flatten_cons]
        rw [ih ([] ++ [s]) ?_ hrest]
        · rw [List.filter_cons, hkeep]
          simp
        · intro x hx
          simp only [List.nil_append, List.mem_singleton] at hx
          rw [hx]
          exact hs0
      · rw [if_neg h2]
        rw [ih (cur ++ [s]) ?_ hrest]
        · rw [List.filter_cons, hkeep]
          simp
        · intro x hx
          rcases List.mem_append.mp hx with hx' | hx'
          · exact hcur x hx'
          · rw [List.mem_singleton] at hx'
            rw [hx']
            exact hs0

/-! ### Non-blank chunks: the final filter keeps everything -/

theorem hasInk_ne_nil {l : List Char} (h : hasInk l = true) : l ≠ [] := by
  rintro rfl
  simp [hasInk] at h

theorem hasInk_of_strip_ne {l : List Char} (h : strip l ≠ []) : hasInk l = true := by
  by_contra hink
  apply h
  have hall : ∀ c ∈ l, isWS c = true := by
    intro c hc
    by_contra hw
    exact hink (List.any_eq_true.mpr ⟨c, hc, by simp [hw]⟩)
  have : l.dropWhile isWS = [] := List.dropWhile_eq_nil_iff.mpr hall
  simp [strip, this, dropTrailingWS]

theorem replaceDot_ink : ∀ {l : List Char}, hasInk l = true → hasInk (replaceDot l) = true := by
  intro l
  induction l using replaceDot.induct with
  | case1 rest ih =>
    intro _
    have hdot : (!isWS '.') = true := by decide
    simp only [replaceDot, hasInk, List.any_cons, hdot, Bool.true_or]
  | case2 c cs hne ih =>
    intro h
    simp only [hasInk, List.any_cons, Bool.or_eq_true_iff] at h
    simp only [replaceDot, hasInk, List.any_cons, Bool.or_eq_true_iff]
    rcases h with h' | h'
    · exact Or.inl h'
    · exact Or.inr (ih h')
  | case3 => intro h; simp [hasInk] at h

theorem dropWhile_ink {l : List Char} (h : hasInk l = true) :
    hasInk (l.dropWhile isWS) = true := by
  induction l with
  | nil => simp [hasInk] at h
  | cons c cs ih =>
    by_cases hw : isWS c
    · simp only [hasInk, List.any_cons] at h
      rcases Bool.or_eq_true_iff.mp h with h' | h'
      · simp [hw] at h'
      · simpa [List.dropWhile_cons, hw] using ih h'
    · simpa [List.dropWhile_cons, hw] using h

theorem dropTrailingWS_ink : ∀ {l : List Char}, hasInk l = true →
    hasInk (dropTrailingWS l) = true := by
  intro l
  induction l with
  | nil => intro h; simp [hasInk] at h
  | cons c cs ih =>
    intro h
    simp only [hasInk, List.any_cons, Bool.or_eq_true_iff] at h
    simp only [dropTrailingWS]
    rcases h with h' | h'
    · have hw : isWS c = false := by
        cases hq : isWS c
        · rfl
        · rw [hq] at h'; simp at h'
      by_cases hr : dropTrailingWS cs = []
      · rw [if_pos hr, hw]
        simp only [Bool.false_eq_true, if_false, hasInk, List.any_cons, List.any_nil,
          Bool.or_false]
        exact h'
      · rw [if_neg hr]
        simp only [hasInk, List.any_cons, Bool.or_eq_true_iff]
        exact Or.inl h'
    · have hink := ih h'
      have hne : dropTrailingWS cs ≠ [] := hasInk_ne_nil hink
      rw [if_neg hne]
      simp only [hasInk, List.any_cons, Bool.or_eq_true_iff]
      exact Or.inr (by simpa [hasInk] using hink)

theorem strip_ink {l : List Char} (h : hasInk l = true) : hasInk (strip l) = true :=
  dropTrailingWS_ink (dropWhile_ink h)

theorem strip_ne_of_ink {l : List Char} (h : hasInk l = true) : strip l ≠ [] :=
  hasInk_ne_nil (strip_ink h)

/-- Every sentence returned by `_improved_sentence_split` is inked: a piece
is kept only when its `strip()` is non-empty, restoring `<DOT>` keeps a
non-whitespace character, and the final `strip()` keeps one too. -/
theorem improved_sentence_split_ink (t : List Char) :
    ∀ s ∈ improved_sentence_split t, hasInk s = true := by
  unfold improved_sentence_split
  generalize splitSent (protectAbbrevs t) = sentences
  have inner : ∀ (parts : List (List Char)) (res : List (List Char)),
      (∀ y ∈ res, hasInk y = true) →
      ∀ y ∈ parts.foldl (fun res2 part => if strip part = [] then res2
          else res2 ++ [strip (replaceDot part)]) res, hasInk y = true := by
    intro parts
    induction parts with
    | nil => intro res h y hy; exact h y hy
    | cons p ps ih =>
      intro res h y hy
      simp only [List.foldl_cons] at hy
      by_cases hp : strip p = []
      · rw [if_pos hp] at hy
        exact ih res h y hy
      · rw [if_neg hp] at hy
        refine ih _ ?_ y hy
        intro z hz
        rcases List.mem_append.mp hz with hz' | hz'
        · exact h z hz'
        · rw [List.mem_singleton] at hz'
          subst hz'
          exact strip_ink (replaceDot_ink (hasInk_of_strip_ne hp))
  have outer : ∀ (sents : List (List Char)) (res : List (List Char)),
      (∀ y ∈ res, hasInk y = true) →
      ∀ y ∈ sents.foldl (fun res sentence => (splitPara sentence).foldl
          (fun res2 part => if strip part = [] then res2
            else res2 ++ [strip (replaceDot part)]) res) res, hasInk y = true := by
    intro sents
    induction sents with
    | nil => intro res h y hy; exact h y hy
    | cons s ss ih =>
      intro res h y hy
      simp only [List.foldl_cons] at hy
      exact ih _ (inner (splitPara s) res h) y hy
  intro s hs
  exact outer sentences [] (by intro y hy; simp at hy) s hs

theorem joinSp_ink : ∀ (c : List (List Char)) (s : List Char),
    s ∈ c → hasInk s = true → hasInk (joinSp c) = true := by
  intro c
  induction c with
  | nil => intro s hs; simp at hs
  | cons a t ih =>
    intro s hs hink
    rcases t with _ | ⟨b, t'⟩
    · simp only [List.mem_singleton] at hs
      subst hs
      simpa [joinSp] using hink
    · rcases List.mem_cons.mp hs with rfl | hs'
      · simp only [joinSp, hasInk, List.any_append, Bool.or_eq_true_iff]
        exact Or.inl (by simpa [hasInk] using hink)
      · simp only [joinSp, hasInk, List.any_append, List.any_cons, Bool.or_eq_true_iff]
        exact Or.inr (Or.inr (by simpa [hasInk] using ih s hs' hink))

theorem joinSp_infix : ∀ (c : List (List Char)) (s : List Char),
    s ∈ c → s <:+: joinSp c := by
  intro c
  induction c with
  | nil => intro s hs; simp at hs
  | cons a t ih =>
    intro s hs
    rcases t with _ | ⟨b, t'⟩
    · simp only [List.mem_singleton] at hs
      subst hs
      exact List.infix_refl _
    · rcases List.mem_cons.mp hs with rfl | hs'
      · exact (List.prefix_append s (' ' :: joinSp (b :: t'))).isInfix
      · have h1 := ih s hs'
        have h2 : joinSp (b :: t') <:+ a ++ ' ' :: joinSp (b :: t') :=
          (List.suffix_cons ' ' _).trans (List.suffix_append a _)
        exact h1.trans h2.isInfix

/-- A sentence of a finalized buffer of `_smart_chunk_text` comes from the
split sentence sequence. -/
theorem chunkListsOf_sentence_mem (tok : Option (List Char → Nat)) (text : List Char)
    (c : List (List Char)) (hc : c ∈ chunkListsOf tok text) :
    c ≠ [] ∧ ∀ s ∈ c, s ∈ sentencesOf text := by
  rw [chunkListsOf_eq_spec] at hc
  rcases chunkLoopSpec_mem (count_tokens tok) MAX_TOKENS_PER_CHUNK OVERLAP_TOKENS
    (sentencesOf text) [] c hc with ⟨hne, hmem⟩
  refine ⟨hne, fun s hs => ?_⟩
  rcases hmem s hs with h | h
  · simp at h
  · exact h

/-- The final blank-chunk filter of `_smart_chunk_text` never removes
anything: every emitted chunk is the join of a non-empty buffer of inked
sentences. -/
theorem smart_chunk_text_eq (tok : Option (List Char → Nat)) (text : List Char) :
    smart_chunk_text tok text = (chunkListsOf tok text).map joinSp := by
  by_cases h : sentencesOf text = []
  · rw [smart_chunk_text, if_pos h]
    rw [chunkListsOf, h]
    rfl
  · rw [smart_chunk_text, if_neg h]
    apply List.filter_eq_self.mpr
    intro chunkstr hmem
    rcases List.mem_map.mp hmem with ⟨c, hc, rfl⟩
    rcases chunkListsOf_sentence_mem tok text c hc with ⟨hne, hsub⟩
    rcases c with _ | ⟨s0, crest⟩
    · exact absurd rfl hne
    have hs0 : s0 ∈ sentencesOf text := hsub s0 (List.mem_cons_self _ _)
    have hink : hasInk s0 = true := improved_sentence_split_ink _ s0 hs0
    have hjoin : hasInk (joinSp (s0 :: crest)) = true :=
      joinSp_ink _ s0 (List.mem_cons_self _ _) hink
    simpa using strip_ne_of_ink hjoin

/-! ### Helper: a stream of oversized sentences produces nothing -/

theorem chunkLoopSpec_all_skip (tc : List Char → Nat) (maxT ovT : Nat) :
    ∀ (ss : List (List Char)), (∀ s ∈ ss, maxT < tc s) →
      chunkLoopSpec tc maxT ovT ss [] = [] := by
  intro ss
  induction ss with
  | nil => intro _; rfl
  | cons s rest ih =>
    intro h
    simp only [chunkLoopSpec]
    rw [if_pos (h s (List.mem_cons_self _ _))]
    exact ih fun x hx => h x (List.mem_cons_of_mem _ hx)

/-! ### Claim theorems -/

/-- Claim C8: the loop invariant of `_smart_chunk_text`'s scan.  At the start
of every iteration `current_tokens` equals the sum of `_count_tokens` over
the sentences in `current_sentences`: the source loop carrying the running
total (`chunkLoop`, seeded consistently with any buffer) coincides
everywhere with the loop that recomputes the buffer's token sum at each step
(`chunkLoopSpec`); both the overlap-reset branch and the plain-append branch
preserve the equality.  The top-level call instantiates `cur = []`,
`current_tokens = 0 = sumTok tc []`. -/
theorem C8_current_tokens_invariant (tc : List Char → Nat) (maxT ovT : Nat)
    (ss cur : List (List Char)) :
    chunkLoop tc maxT ovT ss cur (sumTok tc cur) = chunkLoopSpec tc maxT ovT ss cur :=
  chunkLoop_eq_spec tc maxT ovT ss cur

/-- Claim C1 counterexample: the emitted chunk's own token count, computed by
the same `_count_tokens` used during building, can exceed
`MAX_TOKENS_PER_CHUNK`.  Under a tokenizer state whose encoding counts each
short sentence as 1 token but the longer joined chunk as 401, the three
sentences (1 token each) are accumulated into a single chunk whose joined
text counts 401 > 400: the loop bounds only the per-sentence sum, never the
count of the joined string (joining spaces are uncounted).  The in-source
fallback estimator `len(text)//4` exhibits the same divergence, e.g. on 402
sentences of text `"Aa."` (each 3 chars, 0 tokens) whose join has
1607 chars, 401 tokens. -/
theorem C1_counterexample :
    ∃ c ∈ smart_chunk_text (some fun l => if l.length ≤ 6 then 1 else 401)
        "Aa. Bb. Cc.".data,
      MAX_TOKENS_PER_CHUNK <
        count_tokens (some fun l => if l.length ≤ 6 then 1 else 401) c := by
  decide

/-- Claim C1 amended: every chunk emitted by `_smart_chunk_text` is the
space-join of a finalized sentence buffer in which every sentence's token
count is at most `MAX_TOKENS_PER_CHUNK` — no chunk ever contains an
oversized sentence — and whose per-sentence token-count sum is at most
`MAX_TOKENS_PER_CHUNK + OVERLAP_TOKENS` (the overlap seed may legitimately
push a fresh buffer past `MAX_TOKENS_PER_CHUNK` alone, and the token count
of the joined chunk string itself is not bounded by the loop). -/
theorem C1_amended_chunk_bounds (tok : Option (List Char → Nat)) (text : List Char)
    (c : List (List Char)) (hc : c ∈ chunkListsOf tok text) :
    joinSp c ∈ smart_chunk_text tok text ∧
    sumTok (count_tokens tok) c ≤ MAX_TOKENS_PER_CHUNK + OVERLAP_TOKENS ∧
    ∀ s ∈ c, count_tokens tok s ≤ MAX_TOKENS_PER_CHUNK := by
  refine ⟨?_, ?_⟩
  · rw [smart_chunk_text_eq]
    exact List.mem_map_of_mem _ hc
  · refine chunkLoopSpec_bounds (count_tokens tok) MAX_TOKENS_PER_CHUNK OVERLAP_TOKENS
      (sentencesOf text) [] (by simp [sumTok]) (by intro s hs; simp at hs) c ?_
    rw [← chunkListsOf_eq_spec]
    exact hc

theorem C1_amended_chunk_bounds_witness :
    (["Hello.".data] ∈ chunkListsOf (some fun _ => 10) "Hello.".data) ∧
    (joinSp ["Hello.".data] ∈ smart_chunk_text (some fun _ => 10) "Hello.".data ∧
     sumTok (count_tokens (some fun _ => 10)) ["Hello.".data] ≤
       MAX_TOKENS_PER_CHUNK + OVERLAP_TOKENS ∧
     ∀ s ∈ ["Hello.".data], count_tokens (some fun _ => 10) s ≤ MAX_TOKENS_PER_CHUNK) :=
  ⟨by decide, C1_amended_chunk_bounds (some fun _ => 10) "Hello.".data ["Hello.".data]
    (by decide)⟩

/-- Claim C2: the chunks of `_smart_chunk_text` are the space-joins of the
finalized sentence buffers (the blank-chunk filter removes nothing), and in
that buffer sequence every consecutive pair `(k, k+1)` satisfies: buffer
`k+1` begins with exactly the overlap seed computed from buffer `k` — the
trailing run of buffer `k`'s sentences collected backward while the
cumulative token count stays within `OVERLAP_TOKENS`, in their original
order — as a prefix (`List.Chain'` states this for every adjacent pair). -/
theorem C2_overlap_seed_chain (tok : Option (List Char → Nat)) (text : List Char) :
    smart_chunk_text tok text = (chunkListsOf tok text).map joinSp ∧
    List.Chain' (fun a b => overlapSeed (count_tokens tok) OVERLAP_TOKENS a <+: b)
      (chunkListsOf tok text) := by
  refine ⟨smart_chunk_text_eq tok text, ?_⟩
  rw [chunkListsOf_eq_spec]
  generalize sentencesOf text = ss
  exact chunkLoopSpec_chain (count_tokens tok) MAX_TOKENS_PER_CHUNK OVERLAP_TOKENS ss []

/-- Claim C4: `_smart_chunk_text` has no failure path on degenerate inputs —
in the embedding every function is total, and a document whose sentence
sequence is empty, or all of whose sentences individually exceed
`MAX_TOKENS_PER_CHUNK`, yields the empty chunk sequence; in particular a
document that is one oversized sentence yields zero chunks. -/
theorem C4_degenerate_inputs_empty (tok : Option (List Char → Nat)) (text : List Char)
    (h : sentencesOf text = [] ∨
      ∀ s ∈ sentencesOf text, MAX_TOKENS_PER_CHUNK < count_tokens tok s) :
    smart_chunk_text tok text = [] := by
  rcases h with h | h
  · rw [smart_chunk_text, if_pos h]
  · rw [smart_chunk_text_eq]
    have hnil : chunkListsOf tok text = [] := by
      rw [chunkListsOf_eq_spec]
      exact chunkLoopSpec_all_skip _ _ _ _ h
    rw [hnil]
    rfl

theorem C4_degenerate_inputs_empty_witness :
    (sentencesOf "Hello.".data = [] ∨
      ∀ s ∈ sentencesOf "Hello.".data,
        MAX_TOKENS_PER_CHUNK < count_tokens (some fun _ => 1000) s) ∧
    smart_chunk_text (some fun _ => 1000) "Hello.".data = [] :=
  ⟨by decide, C4_degenerate_inputs_empty (some fun _ => 1000) "Hello.".data (by decide)⟩

/-- Claim C5 counterexample: with `overlap_tokens = 0` consecutive chunks can
still share a sentence.  Under a tokenizer state that counts the middle
sentence `"Bb."` as 0 tokens (the in-source fallback `len//4` likewise gives
0 tokens to any sentence shorter than 4 characters) and the outer sentences
as 300, the overlap walk collects the trailing zero-token sentence even with
budget 0 (`0 + 0 ≤ 0`), so `"Bb."` ends both the first finalized buffer and
begins the second. -/
theorem C5_counterexample :
    chunkLoop (fun s => if s = "Bb.".data then 0 else 300) MAX_TOKENS_PER_CHUNK 0
        (sentencesOf "Aa aa. Bb. Cc cc.".data) [] 0 =
      [["Aa aa.".data, "Bb.".data], ["Bb.".data, "Cc cc.".data]] ∧
    (chunkLoop (fun s => if s = "Bb.".data then 0 else 300) MAX_TOKENS_PER_CHUNK 0
        (sentencesOf "Aa aa. Bb. Cc cc.".data) [] 0).map joinSp =
      ["Aa aa. Bb.".data, "Bb. Cc cc.".data] ∧
    "Bb.".data ∈ ["Aa aa.".data, "Bb.".data] ∧
    "Bb.".data ∈ ["Bb.".data, "Cc cc.".data] := by
  decide

/-- Claim C5 amended: with `overlap_tokens = 0`, provided every sentence has
a positive token count (any tokenizer that never maps a sentence to zero
tokens; the fallback estimator violates this only for sentences shorter than
4 characters), the finalized buffers partition the kept sentences — their
concatenation is exactly the subsequence of sentences within
`MAX_TOKENS_PER_CHUNK` — and if the sentence sequence has no duplicates, no
two chunks (in particular no consecutive ones) share a sentence. -/
theorem C5_amended_zero_overlap (tok : Option (List Char → Nat)) (text : List Char)
    (hpos : ∀ s ∈ sentencesOf text, 0 < count_tokens tok s) :
    (chunkLoop (count_tokens tok) MAX_TOKENS_PER_CHUNK 0
        (sentencesOf text) [] 0).flatten =
      (sentencesOf text).filter
        (fun s => decide (count_tokens tok s ≤ MAX_TOKENS_PER_CHUNK)) ∧
    ((sentencesOf text).Nodup →
      List.Pairwise List.Disjoint
        (chunkLoop (count_tokens tok) MAX_TOKENS_PER_CHUNK 0 (sentencesOf text) [] 0)) := by
  have hspec : chunkLoop (count_tokens tok) MAX_TOKENS_PER_CHUNK 0
      (sentencesOf text) [] 0 =
      chunkLoopSpec (count_tokens tok) MAX_TOKENS_PER_CHUNK 0 (sentencesOf text) [] := by
    have h := chunkLoop_eq_spec (count_tokens tok) MAX_TOKENS_PER_CHUNK 0
      (sentencesOf text) []
    simpa [sumTok] using h
  have hflat :
      (chunkLoop (count_tokens tok) MAX_TOKENS_PER_CHUNK 0
        (sentencesOf text) [] 0).flatten =
      (sentencesOf text).filter
        (fun s => decide (count_tokens tok s ≤ MAX_TOKENS_PER_CHUNK)) := by
    rw [hspec]
    have h := chunkLoopSpec_flat_zero_ov (count_tokens tok) MAX_TOKENS_PER_CHUNK
      (sentencesOf text) [] (by intro s hs; simp at hs) hpos
    simpa using h
  refine ⟨hflat, fun hnodup => ?_⟩
  have hfil : ((sentencesOf text).filter
      (fun s => decide (count_tokens tok s ≤ MAX_TOKENS_PER_CHUNK))).Nodup :=
    hnodup.filter _
  have : (chunkLoop (count_tokens tok) MAX_TOKENS_PER_CHUNK 0
      (sentencesOf text) [] 0).flatten.Nodup := by
    rw [hflat]; exact hfil
  exact (List.nodup_flatten.mp this).2

theorem C5_amended_zero_overlap_witness :
    (∀ s ∈ sentencesOf "Aa. Bb.".data, 0 < count_tokens (some fun _ => 300) s) ∧
    ((chunkLoop (count_tokens (some fun _ => 300)) MAX_TOKENS_PER_CHUNK 0
        (sentencesOf "Aa. Bb.".data) [] 0).flatten =
      (sentencesOf "Aa. Bb.".data).filter
        (fun s => decide (count_tokens (some fun _ => 300) s ≤ MAX_TOKENS_PER_CHUNK)) ∧
    ((sentencesOf "Aa. Bb.".data).Nodup →
      List.Pairwise List.Disjoint
        (chunkLoop (count_tokens (some fun _ => 300)) MAX_TOKENS_PER_CHUNK 0
          (sentencesOf "Aa. Bb.".data) [] 0))) :=
  ⟨by decide, C5_amended_zero_overlap (some fun _ => 300) "Aa. Bb.".data (by decide)⟩

/-- Claim C6: `_count_tokens` is total by construction; its value, as an
integer, is never negative in any tokenizer state; in the fallback state it
is exactly `len(text) // 4` (Python floor division, `Int.fdiv`); and it is
deterministic — identical input under the same tokenizer state yields the
same count. -/
theorem C6_count_tokens_contract (tok : Option (List Char → Nat)) (t t' : List Char)
    (heq : t = t') :
    (0 : Int) ≤ (count_tokens tok t : Int) ∧
    (count_tokens none t : Int) = Int.fdiv (t.length : Int) 4 ∧
    count_tokens tok t = count_tokens tok t' := by
  refine ⟨Int.ofNat_nonneg _, ?_, by rw [heq]⟩
  show ((t.length / 4 : Nat) : Int) = Int.fdiv (t.length : Int) 4
  rw [Int.ofNat_tdiv]
  exact (Int.fdiv_eq_tdiv (Int.ofNat_nonneg _) (by norm_num)).symm

theorem C6_count_tokens_contract_witness :
    ("abcdefgh".data = "abcdefgh".data) ∧
    ((0 : Int) ≤ (count_tokens none "abcdefgh".data : Int) ∧
     (count_tokens none "abcdefgh".data : Int) =
       Int.fdiv (("abcdefgh".data).length : Int) 4 ∧
     count_tokens none "abcdefgh".data = count_tokens none "abcdefgh".data) :=
  ⟨rfl, C6_count_tokens_contract none "abcdefgh".data "abcdefgh".data rfl⟩

/-- Claim C7: on the scenario input, `_improved_sentence_split` returns
exactly the three expected sentences; the periods of the protected
abbreviations `Dr.` and `Mr.` cause no split (each abbreviation survives
intact inside its sentence). -/
theorem C7_abbreviation_scenario :
    improved_sentence_split
        "Dr. Reyes works at sea. Mr. Cruz is an OFW in Dubai. Pamilya niya ay masaya.".data =
      ["Dr. Reyes works at sea.".data,
       "Mr. Cruz is an OFW in Dubai.".data,
       "Pamilya niya ay masaya.".data] := by
  decide

/-- Claim C9: every sentence produced by the split (on the cleaned text)
whose token count is within `MAX_TOKENS_PER_CHUNK` appears inside at least
one chunk emitted by `_smart_chunk_text` — it is one of the sentences of
some finalized buffer, hence an infix of that chunk's joined text. -/
theorem C9_completeness (tok : Option (List Char → Nat)) (text : List Char)
    (s : List Char) (hs : s ∈ sentencesOf text)
    (hle : count_tokens tok s ≤ MAX_TOKENS_PER_CHUNK) :
    ∃ c ∈ smart_chunk_text tok text, s <:+: c := by
  have hflat : s ∈ (chunkLoopSpec (count_tokens tok) MAX_TOKENS_PER_CHUNK OVERLAP_TOKENS
      (sentencesOf text) []).flatten :=
    chunkLoopSpec_flat_complete (count_tokens tok) MAX_TOKENS_PER_CHUNK OVERLAP_TOKENS
      (sentencesOf text) [] s hs hle
  rw [← chunkListsOf_eq_spec] at hflat
  rcases List.mem_flatten.mp hflat with ⟨c, hc, hsc⟩
  refine ⟨joinSp c, ?_, joinSp_infix c s hsc⟩
  rw [smart_chunk_text_eq]
  exact List.mem_map_of_mem _ hc

theorem C9_completeness_witness :
    ("Hello.".data ∈ sentencesOf "Hello.".data) ∧
    (count_tokens (some fun _ => 10) "Hello.".data ≤ MAX_TOKENS_PER_CHUNK) ∧
    ∃ c ∈ smart_chunk_text (some fun _ => 10) "Hello.".data, "Hello.".data <:+: c :=
  ⟨by decide, by decide,
    C9_completeness (some fun _ => 10) "Hello.".data "Hello.".data (by decide) (by decide)⟩

/-- Claim C10: abbreviation protection matches case-insensitively but
substitutes the canonical casing, so the splitter is not content-preserving:
on the input `"MR. Cruz works."` the single returned sentence is
`"Mr. Cruz works."`, which is not a substring of the input. -/
theorem C10_canonical_casing_rewrite :
    improved_sentence_split "MR. Cruz works.".data = ["Mr. Cruz works.".data] ∧
    ¬ ("Mr. Cruz works.".data <:+: "MR. Cruz works.".data) := by
  decide

/-! ### Infrastructure for the `_clean_text` idempotence analysis -/

theorem occurs_iff (pat : List Char) : ∀ (l : List Char), occurs pat l = true ↔ pat <:+: l := by
  intro l
  induction l with
  | nil =>
    simp only [occurs, decide_eq_true_iff, List.infix_nil]
  | cons c cs ih =>
    simp only [occurs, Bool.or_eq_true_iff, List.isPrefixOf_iff_prefix, ih,
      List.infix_cons_iff]

theorem noOcc_of_infix {pat l₁ l₂ : List Char} (h12 : l₁ <:+: l₂)
    (h : occurs pat l₂ = false) : occurs pat l₁ = false := by
  cases hq : occurs pat l₁
  · rfl
  · exfalso
    have h1 : pat <:+: l₁ := (occurs_iff pat l₁).mp hq
    have h2 : occurs pat l₂ = true := (occurs_iff pat l₂).mpr (h1.trans h12)
    rw [h2] at h
    cases h

theorem occurs_cons_elim {pat : List Char} {c : Char} {cs : List Char}
    (h : occurs pat (c :: cs) = false) : occurs pat cs = false := by
  simp only [occurs, Bool.or_eq_false_iff] at h
  exact h.2

theorem occurs_cons_pre {pat : List Char} {c : Char} {cs : List Char}
    (h : occurs pat (c :: cs) = false) : pat.isPrefixOf (c :: cs) = false := by
  simp only [occurs, Bool.or_eq_false_iff] at h
  exact h.1

theorem occurs_cons_intro {pat : List Char} {c : Char} {cs : List Char}
    (h1 : pat.isPrefixOf (c :: cs) = false) (h2 : occurs pat cs = false) :
    occurs pat (c :: cs) = false := by
  simp only [occurs, Bool.or_eq_false_iff]
  exact ⟨h1, h2⟩

theorem hasWW_cons_elim {a : Char} {l : List Char} (h : hasWW (a :: l) = false) :
    hasWW l = false := by
  cases l with
  | nil => rfl
  | cons b r =>
    simp only [hasWW, Bool.or_eq_false_iff] at h
    exact h.2

theorem hasWW_cons_pair {a b : Char} {l : List Char} (h : hasWW (a :: b :: l) = false) :
    (isWS a && isWS b) = false := by
  simp only [hasWW, Bool.or_eq_false_iff] at h
  exact h.1

theorem hasWW_cons_intro {a : Char} {l : List Char}
    (hpair : ∀ d ds, l = d :: ds → (isWS a && isWS d) = false)
    (h : hasWW l = false) : hasWW (a :: l) = false := by
  cases l with
  | nil => rfl
  | cons d ds =>
    simp only [hasWW, Bool.or_eq_false_iff]
    exact ⟨hpair d ds rfl, by simpa [hasWW] using h⟩

theorem hasWW_cons_nonws {a : Char} {l : List Char} (ha : isWS a = false)
    (h : hasWW l = false) : hasWW (a :: l) = false :=
  hasWW_cons_intro (fun d ds _ => by simp [ha]) h

theorem hasWW_cons_of {a : Char} {l : List Char} (h : hasWW l = true) :
    hasWW (a :: l) = true := by
  cases l with
  | nil => cases h
  | cons b r =>
    simp only [hasWW, Bool.or_eq_true_iff]
    exact Or.inr (by simpa [hasWW] using h)

theorem hasWW_append_r {l : List Char} (t : List Char) (h : hasWW l = true) :
    hasWW (l ++ t) = true := by
  induction l with
  | nil => cases h
  | cons a r ih =>
    cases r with
    | nil => cases h
    | cons b r2 =>
      simp only [hasWW, Bool.or_eq_true_iff] at h
      rcases h with h | h
      · simp only [List.cons_append, hasWW, Bool.or_eq_true_iff]
        exact Or.inl h
      · have := ih (by simpa [hasWW] using h)
        simpa [List.cons_append] using hasWW_cons_of this

theorem hasWW_append_l (s : List Char) {l : List Char} (h : hasWW l = true) :
    hasWW (s ++ l) = true := by
  induction s with
  | nil => simpa using h
  | cons a r ih => simpa [List.cons_append] using hasWW_cons_of ih

theorem noWW_of_infix {l₁ l₂ : List Char} (h12 : l₁ <:+: l₂)
    (h : hasWW l₂ = false) : hasWW l₁ = false := by
  cases hq : hasWW l₁
  · rfl
  · exfalso
    rcases h12 with ⟨u, v, rfl⟩
    have h2 : hasWW (u ++ (l₁ ++ v)) = true :=
      hasWW_append_l u (hasWW_append_r v hq)
    rw [List.append_assoc] at h
    rw [h2] at h
    cases h

theorem wsSpace_iff {l : List Char} :
    wsSpace l = true ↔ ∀ c ∈ l, isWS c = true → c = ' ' := by
  simp only [wsSpace, List.all_eq_true, Bool.or_eq_true_iff, Bool.not_eq_eq_eq_not,
    Bool.not_true, beq_iff_eq]
  constructor
  · intro h c hc hw
    rcases h c hc with h' | h'
    · rw [hw] at h'; cases h'
    · exact h'
  · intro h c hc
    by_cases hw : isWS c = true
    · exact Or.inr (h c hc hw)
    · exact Or.inl (by simpa using hw)

/-! ### `strip` lemmas -/

theorem dropTrailingWS_pre : ∀ (l : List Char), dropTrailingWS l <+: l := by
  intro l
  induction l with
  | nil => exact List.prefix_refl _
  | cons c cs ih =>
    simp only [dropTrailingWS]
    by_cases hr : dropTrailingWS cs = []
    · rw [if_pos hr]
      by_cases hw : isWS c
      · rw [if_pos hw]; exact List.nil_prefix
      · rw [if_neg hw]; exact ⟨cs, rfl⟩
    · rw [if_neg hr]
      rcases ih with ⟨t, ht⟩
      exact ⟨t, by rw [List.cons_append, ht]⟩

theorem strip_infix (l : List Char) : strip l <:+: l := by
  have h1 : dropTrailingWS (l.dropWhile isWS) <+: l.dropWhile isWS :=
    dropTrailingWS_pre _
  have h2 : l.dropWhile isWS <:+ l := List.dropWhile_suffix _
  exact h1.isInfix.trans h2.isInfix

theorem strip_subset {a : Char} {l : List Char} (h : a ∈ strip l) : a ∈ l :=
  ( strip_infix l).subset h

theorem head_dropWhileWS : ∀ (l : List Char) (d : Char),
    (l.dropWhile isWS).head? = some d → isWS d = false := by
  intro l
  induction l with
  | nil => intro d h; cases h
  | cons c cs ih =>
    intro d h
    by_cases hw : isWS c
    · rw [List.dropWhile_cons, if_pos hw] at h
      exact ih d h
    · rw [List.dropWhile_cons, if_neg hw] at h
      rw [List.head?_cons, Option.some.injEq] at h
      subst h
      simpa using hw

theorem dropTrailingWS_head : ∀ (l : List Char) (d : Char) (ds : List Char),
    dropTrailingWS l = d :: ds → l.head? = some d := by
  intro l
  induction l with
  | nil => intro d ds h; cases h
  | cons c cs _ =>
    intro d ds h
    simp only [dropTrailingWS] at h
    by_cases hr : dropTrailingWS cs = []
    · rw [if_pos hr] at h
      by_cases hw : isWS c
      · rw [if_pos hw] at h; cases h
      · rw [if_neg hw] at h
        rw [List.cons.injEq] at h
        rw [h.1]
        rfl
    · rw [if_neg hr] at h
      rw [List.cons.injEq] at h
      rw [h.1]
      rfl

theorem dropTrailingWS_last : ∀ (l : List Char),
    dropTrailingWS l = [] ∨
      ∃ d, (dropTrailingWS l).getLast? = some d ∧ isWS d = false := by
  intro l
  induction l with
  | nil => exact Or.inl rfl
  | cons c cs ih =>
    simp only [dropTrailingWS]
    by_cases hr : dropTrailingWS cs = []
    · rw [if_pos hr]
      by_cases hw : isWS c
      · rw [if_pos hw]; exact Or.inl rfl
      · rw [if_neg hw]
        refine Or.inr ⟨c, rfl, by simpa using hw⟩
    · rw [if_neg hr]
      rcases ih with ih | ⟨d, hd, hdw⟩
      · exact absurd ih hr
      · refine Or.inr ⟨d, ?_, hdw⟩
        rcases hcs : dropTrailingWS cs with _ | ⟨e, es⟩
        · exact absurd hcs hr
        · rw [hcs] at hd
          rw [List.getLast?_cons_cons]
          exact hd

theorem dropTrailingWS_eq_self : ∀ (l : List Char),
    (l = [] ∨ ∃ d, l.getLast? = some d ∧ isWS d = false) →
    dropTrailingWS l = l := by
  intro l
  induction l with
  | nil => intro _; rfl
  | cons c cs ih =>
    intro h
    rcases h with h | ⟨d, hd, hdw⟩
    · cases h
    · simp only [dropTrailingWS]
      cases cs with
      | nil =>
        have hcd : c = d := by
          simpa [List.getLast?] using hd
        subst hcd
        simp [dropTrailingWS, hdw]
      | cons c2 cs2 =>
        have hrec : dropTrailingWS (c2 :: cs2) = c2 :: cs2 := by
          refine ih (Or.inr ⟨d, ?_, hdw⟩)
          rw [List.getLast?_cons_cons] at hd
          exact hd
        rw [hrec, if_neg (by simp)]

theorem dropTrailingWS_idem (l : List Char) :
    dropTrailingWS (dropTrailingWS l) = dropTrailingWS l :=
  dropTrailingWS_eq_self _ (dropTrailingWS_last l)

theorem dropWhileWS_eq_self {l : List Char}
    (h : ∀ d, l.head? = some d → isWS d = false) : l.dropWhile isWS = l := by
  cases l with
  | nil => rfl
  | cons c cs =>
    rw [List.dropWhile_cons, if_neg]
    simp [h c rfl]

theorem strip_idem (l : List Char) : strip (strip l) = strip l := by
  have hhead : ∀ d, (strip l).head? = some d → isWS d = false := by
    intro d hd
    rcases hs : strip l with _ | ⟨e, es⟩
    · rw [hs] at hd; cases hd
    · rw [hs] at hd
      rw [List.head?_cons, Option.some.injEq] at hd
      subst hd
      have := dropTrailingWS_head _ _ _ hs
      rcases hq : (l.dropWhile isWS).head? with _ | q
      · rw [hq] at this; cases this
      · rw [hq] at this
        rw [Option.some.injEq] at this
        subst this
        exact head_dropWhileWS l _ hq
  show dropTrailingWS ((strip l).dropWhile isWS) = strip l
  rw [dropWhileWS_eq_self hhead]
  exact dropTrailingWS_idem _

/-! ### Character provenance of the cleaning passes -/

theorem mem_collapseWSGo : ∀ (b : Bool) (l : List Char) (a : Char),
    a ∈ collapseWSGo b l → a = ' ' ∨ a ∈ l := by
  intro b l
  induction b, l using collapseWSGo.induct with
  | case1 b => intro a h; cases h
  | case2 c cs hw ih =>
    intro a h
    rw [collapseWSGo, if_pos hw, if_pos rfl] at h
    exact (ih a h).imp_right (List.mem_cons_of_mem _)
  | case3 b c cs hw hb ih =>
    intro a h
    have hb' : b = false := by
      cases b
      · rfl
      · exact absurd rfl hb
    subst hb'
    rw [collapseWSGo, if_pos hw, if_neg (by simp)] at h
    rcases List.mem_cons.mp h with rfl | h'
    · exact Or.inl rfl
    · exact (ih a h').imp_right (List.mem_cons_of_mem _)
  | case4 b c cs hw ih =>
    intro a h
    rw [collapseWSGo, if_neg hw] at h
    rcases List.mem_cons.mp h with rfl | h'
    · exact Or.inr (List.mem_cons_self _ _)
    · exact (ih a h').imp_right (List.mem_cons_of_mem _)

/-- Fallback equation for `fixApos`: when the apostrophe pattern does not
match at the head, the head character passes through. -/
theorem fixApos_fallback (c : Char) (cs : List Char)
    (hne : ∀ rest, ¬(c = 'â' ∧ cs = '€' :: '™' :: rest)) :
    fixApos (c :: cs) = c :: fixApos cs := by
  rw [fixApos.eq_def]
  split
  · next rest heq =>
    exfalso
    injection heq with h1 heq2
    exact hne rest ⟨h1, heq2⟩
  · next c' cs' heq =>
    injection heq with h1 h2
    rw [h1, h2]
  · next heq => cases heq

theorem mem_fixApos : ∀ (l : List Char) (a : Char),
    a ∈ fixApos l → a = '\'' ∨ a ∈ l := by
  intro l
  induction l using fixApos.induct with
  | case1 rest ih =>
    intro a h
    rw [fixApos] at h
    rcases List.mem_cons.mp h with rfl | h'
    · exact Or.inl rfl
    · rcases ih a h' with h'' | h''
      · exact Or.inl h''
      · exact Or.inr (by simp [h''])
  | case2 c cs hne ih =>
    intro a h
    rw [fixApos_fallback c cs (fun rest hcon => hne rest hcon.1 hcon.2)] at h
    rcases List.mem_cons.mp h with rfl | h'
    · exact Or.inr (List.mem_cons_self _ _)
    · exact (ih a h').imp_right (List.mem_cons_of_mem _)
  | case3 => intro a h; cases h

/-! ### Stage lemmas: whitespace collapsing -/

theorem collapseWSGo_true_head : ∀ (l : List Char),
    collapseWSGo true l = [] ∨
      ∃ d ds, collapseWSGo true l = d :: ds ∧ isWS d = false := by
  intro l
  induction l with
  | nil => exact Or.inl rfl
  | cons c cs ih =>
    by_cases hw : isWS c
    · rw [collapseWSGo, if_pos hw, if_pos rfl]
      exact ih
    · rw [collapseWSGo, if_neg hw]
      exact Or.inr ⟨c, collapseWSGo false cs, rfl, by simpa using hw⟩

theorem collapseWSGo_SP : ∀ (b : Bool) (l : List Char),
    wsSpace (collapseWSGo b l) = true := by
  intro b l
  induction b, l using collapseWSGo.induct with
  | case1 b => simp [collapseWSGo, wsSpace]
  | case2 c cs hw ih =>
    rw [collapseWSGo, if_pos hw, if_pos rfl]
    exact ih
  | case3 b c cs hw hb ih =>
    have hb' : b = false := by revert hb; cases b <;> simp
    subst hb'
    rw [collapseWSGo, if_pos hw, if_neg (by simp)]
    rw [wsSpace] at ih ⊢
    simp only [List.all_cons, Bool.and_eq_true]
    exact ⟨by decide, ih⟩
  | case4 b c cs hw ih =>
    rw [collapseWSGo, if_neg hw]
    rw [wsSpace] at ih ⊢
    simp only [List.all_cons, Bool.and_eq_true]
    refine ⟨?_, ih⟩
    simp only [Bool.or_eq_true_iff, Bool.not_eq_eq_eq_not, Bool.not_true]
    exact Or.inl (by simpa using hw)

theorem collapseWSGo_NW : ∀ (b : Bool) (l : List Char),
    hasWW (collapseWSGo b l) = false := by
  intro b l
  induction b, l using collapseWSGo.induct with
  | case1 b => rfl
  | case2 c cs hw ih =>
    rw [collapseWSGo, if_pos hw, if_pos rfl]
    exact ih
  | case3 b c cs hw hb ih =>
    have hb' : b = false := by revert hb; cases b <;> simp
    subst hb'
    rw [collapseWSGo, if_pos hw, if_neg (by simp)]
    refine hasWW_cons_intro (fun d ds hds => ?_) ih
    rcases collapseWSGo_true_head cs with h' | ⟨e, es, he, hew⟩
    · rw [h'] at hds; cases hds
    · rw [he] at hds
      injection hds with h1 _
      rw [h1] at hew
      simp [hew]
  | case4 b c cs hw ih =>
    rw [collapseWSGo, if_neg hw]
    exact hasWW_cons_nonws (by simpa using hw) ih

theorem collapseWSGo_true_skip (cs : List Char)
    (h : cs = [] ∨ ∃ d ds, cs = d :: ds ∧ isWS d = false) :
    collapseWSGo true cs = collapseWSGo false cs := by
  rcases h with rfl | ⟨d, ds, rfl, hdw⟩
  · rfl
  · rw [collapseWSGo, collapseWSGo, if_neg (by simp [hdw]), if_neg (by simp [hdw])]

theorem collapseWS_id : ∀ (l : List Char), wsSpace l = true → hasWW l = false →
    collapseWSGo false l = l := by
  intro l
  induction l with
  | nil => intro _ _; rfl
  | cons c cs ih =>
    intro hsp hww
    have hsp' : wsSpace cs = true := by
      rw [wsSpace] at hsp ⊢
      simp only [List.all_cons, Bool.and_eq_true] at hsp
      exact hsp.2
    by_cases hw : isWS c
    · have hc : c = ' ' := by
        rw [wsSpace_iff] at hsp
        exact hsp c (List.mem_cons_self _ _) (by simpa using hw)
      rw [collapseWSGo, if_pos hw, if_neg (by simp)]
      have hskip : collapseWSGo true cs = collapseWSGo false cs := by
        refine collapseWSGo_true_skip cs ?_
        cases cs with
        | nil => exact Or.inl rfl
        | cons d ds =>
          refine Or.inr ⟨d, ds, rfl, ?_⟩
          have hpair := hasWW_cons_pair hww
          rw [Bool.and_eq_false_iff] at hpair
          rcases hpair with h' | h'
          · rw [hw] at h'; cases h'
          · exact h'
      rw [hskip, ih hsp' (hasWW_cons_elim hww), hc]
    · rw [collapseWSGo, if_neg hw, ih hsp' (hasWW_cons_elim hww)]

/-! ### Stage lemmas: citation removal -/

theorem removeCites_id : ∀ (l : List Char), '[' ∉ l → removeCitesGo 0 l = l := by
  intro l
  induction l with
  | nil => intro _; rfl
  | cons c cs ih =>
    intro h
    have hc : c ≠ '[' := fun hc => h (hc ▸ List.mem_cons_self _ _)
    rw [removeCitesGo, if_neg (fun hcon => hc hcon.1)]
    rw [ih (fun h' => h (List.mem_cons_of_mem _ h'))]

/-! ### Stage lemmas: apostrophe repair -/

theorem fixApos_head (c2 : Char) (cs2 : List Char) :
    ∀ d ds, fixApos (c2 :: cs2) = d :: ds → d = c2 ∨ d = '\'' := by
  intro d ds h
  by_cases hpat : ∃ r, c2 = 'â' ∧ cs2 = '€' :: '™' :: r
  · rcases hpat with ⟨r, rfl, rfl⟩
    rw [fixApos] at h
    injection h with h1 _
    exact Or.inr h1.symm
  · rw [fixApos_fallback c2 cs2 (fun rest hcon => hpat ⟨rest, hcon⟩)] at h
    injection h with h1 _
    exact Or.inl h1.symm

theorem fixApos_sound : ∀ (l : List Char),
    occurs ['â', '€', '™'] (fixApos l) = false := by
  intro l
  induction l using fixApos.induct with
  | case1 rest ih =>
    rw [fixApos]
    refine occurs_cons_intro (by simp [List.isPrefixOf]) ih
  | case2 c cs hne ih =>
    rw [fixApos_fallback c cs (fun rest hcon => hne rest hcon.1 hcon.2)]
    refine occurs_cons_intro ?_ ih
    by_cases hc : c = 'â'
    · subst hc
      simp only [List.isPrefixOf, beq_self_eq_true, Bool.true_and]
      cases cs with
      | nil => rfl
      | cons c2 cs2 =>
        by_cases h2 : c2 = '€'
        · subst h2
          rw [fixApos_fallback '€' cs2 (fun rest hcon => by cases hcon.1)]
          simp only [List.isPrefixOf, beq_self_eq_true, Bool.true_and]
          cases cs2 with
          | nil => rfl
          | cons c3 cs3 =>
            have h3 : c3 ≠ '™' := by
              intro h3
              exact hne cs3 rfl (by rw [h3])
            rcases hfa : fixApos (c3 :: cs3) with _ | ⟨d, ds⟩
            · rfl
            · rcases fixApos_head c3 cs3 d ds hfa with rfl | rfl
              · simp [List.isPrefixOf, h3, Ne.symm h3]
              · simp [List.isPrefixOf]
        · rcases hfa : fixApos (c2 :: cs2) with _ | ⟨d, ds⟩
          · rfl
          · rcases fixApos_head c2 cs2 d ds hfa with rfl | rfl
            · simp [List.isPrefixOf, Ne.symm h2]
            · simp [List.isPrefixOf]
    · simp [List.isPrefixOf, Ne.symm hc]
  | case3 => rfl

theorem fixApos_id : ∀ (l : List Char),
    occurs ['â', '€', '™'] l = false → fixApos l = l := by
  intro l
  induction l using fixApos.induct with
  | case1 rest ih =>
    intro h
    exfalso
    have := occurs_cons_pre h
    simp [List.isPrefixOf] at this
  | case2 c cs hne ih =>
    intro h
    rw [fixApos_fallback c cs (fun rest hcon => hne rest hcon.1 hcon.2),
      ih (occurs_cons_elim h)]
  | case3 => intro _; rfl

theorem fixApos_NW : ∀ (l : List Char), hasWW l = false →
    hasWW (fixApos l) = false := by
  intro l
  induction l using fixApos.induct with
  | case1 rest ih =>
    intro h
    rw [fixApos]
    refine hasWW_cons_nonws (by decide) ?_
    exact ih (hasWW_cons_elim (hasWW_cons_elim (hasWW_cons_elim h)))
  | case2 c cs hne ih =>
    intro h
    rw [fixApos_fallback c cs (fun rest hcon => hne rest hcon.1 hcon.2)]
    refine hasWW_cons_intro (fun d ds hds => ?_) (ih (hasWW_cons_elim h))
    cases cs with
    | nil => rw [fixApos] at hds; cases hds
    | cons c2 cs2 =>
      rcases fixApos_head c2 cs2 d ds hds with rfl | rfl
      · exact hasWW_cons_pair h
      · simp [isWS]
  | case3 => intro _; rfl

theorem fixApos_SP : ∀ (l : List Char), wsSpace l = true →
    wsSpace (fixApos l) = true := by
  intro l h
  rw [wsSpace_iff] at h ⊢
  intro c hc hw
  rcases mem_fixApos l c hc with rfl | hc'
  · cases hw
  · exact h c hc' hw

/-! ### Stage lemmas: quote repair -/

/-- Fallback equation for `fixQuotes`: when neither quote pattern matches at
the head, the head character passes through. -/
theorem fixQuotes_fallback (c : Char) (cs : List Char)
    (hne : ∀ rest, ¬(c = 'â' ∧ cs = '€' :: rest)) :
    fixQuotes (c :: cs) = c :: fixQuotes cs := by
  rw [fixQuotes.eq_def]
  split
  · rename_i r heq
    exfalso
    injection heq with h1 heq2
    exact hne ('œ' :: r) ⟨h1, heq2⟩
  · rename_i r hno heq
    exfalso
    injection heq with h1 heq2
    exact hne r ⟨h1, heq2⟩
  · rename_i c' cs' hno1 hno2 heq
    injection heq with h1 h2
    rw [← h1, ← h2]
  · rename_i heq
    simp at heq

/-- Second-pattern equation for `fixQuotes`: `â€` not followed by `œ`. -/
theorem fixQuotes_pat2 (rest : List Char)
    (hne : ∀ r2, rest = 'œ' :: r2 → False) :
    fixQuotes ('â' :: '€' :: rest) = '"' :: fixQuotes rest := by
  rw [fixQuotes.eq_def]
  split
  · rename_i r2 heq
    exfalso
    injection heq with _ heq2
    injection heq2 with _ heq3
    exact hne r2 heq3
  · rename_i r2 hno heq
    injection heq with _ heq2
    injection heq2 with _ heq3
    rw [heq3]
  · rename_i c' cs' hno1 hno2 heq
    exfalso
    injection heq with hc heq2
    exact hno2 rest hc.symm heq2.symm
  · rename_i heq
    simp at heq

theorem fixQuotes_head (c2 : Char) (cs2 : List Char) :
    ∀ d ds, fixQuotes (c2 :: cs2) = d :: ds → d = c2 ∨ d = '"' := by
  intro d ds h
  by_cases hpat : ∃ r, c2 = 'â' ∧ cs2 = '€' :: r
  · rcases hpat with ⟨r, rfl, rfl⟩
    by_cases hr : ∃ r2, r = 'œ' :: r2
    · rcases hr with ⟨r2, rfl⟩
      rw [fixQuotes] at h
      injection h with h1 _
      exact Or.inr h1.symm
    · rw [fixQuotes_pat2 r (fun r2 hr2 => hr ⟨r2, hr2⟩)] at h
      injection h with h1 _
      exact Or.inr h1.symm
  · rw [fixQuotes_fallback c2 cs2 (fun rest hcon => hpat ⟨rest, hcon⟩)] at h
    injection h with h1 _
    exact Or.inl h1.symm

theorem mem_fixQuotes : ∀ (l : List Char) (a : Char),
    a ∈ fixQuotes l → a = '"' ∨ a ∈ l := by
  intro l
  induction l using fixQuotes.induct with
  | case1 rest ih =>
    intro a h
    rw [fixQuotes] at h
    rcases List.mem_cons.mp h with rfl | h'
    · exact Or.inl rfl
    · rcases ih a h' with h'' | h''
      · exact Or.inl h''
      · exact Or.inr (by simp [h''])
  | case2 rest hne ih =>
    intro a h
    rw [fixQuotes_pat2 rest hne] at h
    rcases List.mem_cons.mp h with rfl | h'
    · exact Or.inl rfl
    · rcases ih a h' with h'' | h''
      · exact Or.inl h''
      · exact Or.inr (by simp [h''])
  | case3 c cs hne1 hne2 ih =>
    intro a h
    rw [fixQuotes_fallback c cs (fun rest hcon => hne2 rest hcon.1 hcon.2)] at h
    rcases List.mem_cons.mp h with rfl | h'
    · exact Or.inr (List.mem_cons_self _ _)
    · exact (ih a h').imp_right (List.mem_cons_of_mem _)
  | case4 => intro a h; cases h

theorem fixQuotes_SP : ∀ (l : List Char), wsSpace l = true →
    wsSpace (fixQuotes l) = true := by
  intro l h
  rw [wsSpace_iff] at h ⊢
  intro c hc hw
  rcases mem_fixQuotes l c hc with rfl | hc'
  · cases hw
  · exact h c hc' hw

theorem fixQuotes_sound : ∀ (l : List Char),
    occurs ['â', '€'] (fixQuotes l) = false := by
  intro l
  induction l using fixQuotes.induct with
  | case1 rest ih =>
    rw [fixQuotes]
    exact occurs_cons_intro (by simp [List.isPrefixOf]) ih
  | case2 rest hne ih =>
    rw [fixQuotes_pat2 rest hne]
    exact occurs_cons_intro (by simp [List.isPrefixOf]) ih
  | case3 c cs hne1 hne2 ih =>
    rw [fixQuotes_fallback c cs (fun rest hcon => hne2 rest hcon.1 hcon.2)]
    refine occurs_cons_intro ?_ ih
    by_cases hc : c = 'â'
    · subst hc
      simp only [List.isPrefixOf, beq_self_eq_true, Bool.true_and]
      cases cs with
      | nil => rfl
      | cons c2 cs2 =>
        have h2 : c2 ≠ '€' := by
          intro h2
          exact hne2 cs2 rfl (by rw [h2])
        rcases hfq : fixQuotes (c2 :: cs2) with _ | ⟨d, ds⟩
        · rfl
        · rcases fixQuotes_head c2 cs2 d ds hfq with rfl | rfl
          · simp [List.isPrefixOf, Ne.symm h2]
          · simp [List.isPrefixOf]
    · simp [List.isPrefixOf, Ne.symm hc]
  | case4 => rfl

theorem fixQuotes_id : ∀ (l : List Char),
    occurs ['â', '€'] l = false → fixQuotes l = l := by
  intro l
  induction l using fixQuotes.induct with
  | case1 rest ih =>
    intro h
    exfalso
    have := occurs_cons_pre h
    simp [List.isPrefixOf] at this
  | case2 rest hne ih =>
    intro h
    exfalso
    have := occurs_cons_pre h
    simp [List.isPrefixOf] at this
  | case3 c cs hne1 hne2 ih =>
    intro h
    rw [fixQuotes_fallback c cs (fun rest hcon => hne2 rest hcon.1 hcon.2),
      ih (occurs_cons_elim h)]
  | case4 => intro _; rfl

theorem fixQuotes_NA : ∀ (l : List Char), occurs ['â', '€', '™'] l = false →
    occurs ['â', '€', '™'] (fixQuotes l) = false := by
  intro l
  induction l using fixQuotes.induct with
  | case1 rest ih =>
    intro h
    rw [fixQuotes]
    refine occurs_cons_intro (by simp [List.isPrefixOf]) ?_
    exact ih (occurs_cons_elim (occurs_cons_elim (occurs_cons_elim h)))
  | case2 rest hne ih =>
    intro h
    rw [fixQuotes_pat2 rest hne]
    refine occurs_cons_intro (by simp [List.isPrefixOf]) ?_
    exact ih (occurs_cons_elim (occurs_cons_elim h))
  | case3 c cs hne1 hne2 ih =>
    intro h
    rw [fixQuotes_fallback c cs (fun rest hcon => hne2 rest hcon.1 hcon.2)]
    refine occurs_cons_intro ?_ (ih (occurs_cons_elim h))
    by_cases hc : c = 'â'
    · subst hc
      simp only [List.isPrefixOf, beq_self_eq_true, Bool.true_and]
      cases cs with
      | nil => rfl
      | cons c2 cs2 =>
        have h2 : c2 ≠ '€' := by
          intro h2
          exact hne2 cs2 rfl (by rw [h2])
        rcases hfq : fixQuotes (c2 :: cs2) with _ | ⟨d, ds⟩
        · rfl
        · rcases fixQuotes_head c2 cs2 d ds hfq with rfl | rfl
          · simp [List.isPrefixOf, Ne.symm h2]
          · simp [List.isPrefixOf]
    · simp [List.isPrefixOf, Ne.symm hc]
  | case4 => intro _; rfl

theorem fixQuotes_NW : ∀ (l : List Char), hasWW l = false →
    hasWW (fixQuotes l) = false := by
  intro l
  induction l using fixQuotes.induct with
  | case1 rest ih =>
    intro h
    rw [fixQuotes]
    refine hasWW_cons_nonws (by decide) ?_
    exact ih (hasWW_cons_elim (hasWW_cons_elim (hasWW_cons_elim h)))
  | case2 rest hne ih =>
    intro h
    rw [fixQuotes_pat2 rest hne]
    refine hasWW_cons_nonws (by decide) ?_
    exact ih (hasWW_cons_elim (hasWW_cons_elim h))
  | case3 c cs hne1 hne2 ih =>
    intro h
    rw [fixQuotes_fallback c cs (fun rest hcon => hne2 rest hcon.1 hcon.2)]
    refine hasWW_cons_intro (fun d ds hds => ?_) (ih (hasWW_cons_elim h))
    cases cs with
    | nil => rw [fixQuotes] at hds; cases hds
    | cons c2 cs2 =>
      rcases fixQuotes_head c2 cs2 d ds hds with rfl | rfl
      · exact hasWW_cons_pair h
      · simp [isWS]
  | case4 => intro _; rfl

/-! ### Stage lemmas: ellipsis normalization -/

/-- Fallback equation for the dot scanner outside a run: when no
three-period pattern starts at the head, the head passes through. -/
theorem fixDots_fallback (c : Char) (cs : List Char)
    (hne : ∀ rest, ¬(c = '.' ∧ cs = '.' :: '.' :: rest)) :
    fixDotsGo false (c :: cs) = c :: fixDotsGo false cs := by
  rw [fixDotsGo.eq_def]
  split
  · rename_i heq
    simp at heq
  · rename_i hb heq
    simp at hb
  · rename_i hb heq
    simp at hb
  · rename_i r hb heq
    exfalso
    injection heq with h1 heq2
    exact hne r ⟨h1, heq2⟩
  · rename_i c' cs' hno hb heq
    injection heq with h1 h2
    rw [← h1, ← h2]

/-- Inside a run, a non-period character closes the run and passes through. -/
theorem fixDots_true_step (c : Char) (cs : List Char) (hc : c ≠ '.') :
    fixDotsGo true (c :: cs) = c :: fixDotsGo false cs := by
  rw [fixDotsGo.eq_def]
  split
  · rename_i heq
    simp at heq
  · rename_i cs2 hb heq
    exfalso
    injection heq with h1 _
    exact hc h1
  · rename_i c' cs' hno hb heq
    injection heq with h1 h2
    rw [← h1, ← h2]
  · rename_i hb heq
    simp at hb
  · rename_i hb heq
    simp at hb

theorem fixDots_true_head : ∀ (l : List Char),
    fixDotsGo true l = [] ∨
      ∃ d ds, fixDotsGo true l = d :: ds ∧ d ≠ '.' := by
  intro l
  induction l with
  | nil => exact Or.inl rfl
  | cons c cs ih =>
    by_cases hc : c = '.'
    · subst hc
      rw [fixDotsGo]
      exact ih
    · rw [fixDots_true_step c cs hc]
      exact Or.inr ⟨c, fixDotsGo false cs, rfl, hc⟩

theorem fixDots_false_head (c : Char) (cs : List Char) :
    ∃ es, fixDotsGo false (c :: cs) = c :: es := by
  by_cases hpat : ∃ r, c = '.' ∧ cs = '.' :: '.' :: r
  · rcases hpat with ⟨r, rfl, rfl⟩
    rw [fixDotsGo]
    exact ⟨'.' :: '.' :: fixDotsGo true r, rfl⟩
  · rw [fixDots_fallback c cs (fun rest hcon => hpat ⟨rest, hcon⟩)]
    exact ⟨fixDotsGo false cs, rfl⟩

theorem fixDotsGo_nil (b : Bool) : fixDotsGo b [] = [] := by
  cases b <;> rfl

theorem mem_fixDotsGo : ∀ (b : Bool) (l : List Char) (a : Char),
    a ∈ fixDotsGo b l → a = '.' ∨ a ∈ l := by
  intro b l
  induction b, l using fixDotsGo.induct with
  | case1 b => intro a h; rw [fixDotsGo_nil] at h; cases h
  | case2 cs ih =>
    intro a h
    rw [fixDotsGo] at h
    exact (ih a h).imp_right (List.mem_cons_of_mem _)
  | case3 c cs hc ih =>
    intro a h
    rw [fixDots_true_step c cs (fun h' => hc h')] at h
    rcases List.mem_cons.mp h with rfl | h'
    · exact Or.inr (List.mem_cons_self _ _)
    · exact (ih a h').imp_right (List.mem_cons_of_mem _)
  | case4 rest ih =>
    intro a h
    rw [fixDotsGo] at h
    rcases List.mem_cons.mp h with rfl | h'
    · exact Or.inl rfl
    · rcases List.mem_cons.mp h' with rfl | h''
      · exact Or.inl rfl
      · rcases List.mem_cons.mp h'' with rfl | h'''
        · exact Or.inl rfl
        · rcases ih a h''' with h4 | h4
          · exact Or.inl h4
          · exact Or.inr (by simp [h4])
  | case5 c cs hne ih =>
    intro a h
    rw [fixDots_fallback c cs (fun rest hcon => hne rest hcon.1 hcon.2)] at h
    rcases List.mem_cons.mp h with rfl | h'
    · exact Or.inr (List.mem_cons_self _ _)
    · exact (ih a h').imp_right (List.mem_cons_of_mem _)

theorem fixDots_SP : ∀ (b : Bool) (l : List Char), wsSpace l = true →
    wsSpace (fixDotsGo b l) = true := by
  intro b l h
  rw [wsSpace_iff] at h ⊢
  intro c hc hw
  rcases mem_fixDotsGo b l c hc with rfl | hc'
  · cases hw
  · exact h c hc' hw

theorem fixDots_NW : ∀ (b : Bool) (l : List Char), hasWW l = false →
    hasWW (fixDotsGo b l) = false := by
  intro b l
  induction b, l using fixDotsGo.induct with
  | case1 b => intro _; rw [fixDotsGo_nil]; rfl
  | case2 cs ih =>
    intro h
    rw [fixDotsGo]
    exact ih (hasWW_cons_elim h)
  | case3 c cs hc ih =>
    intro h
    rw [fixDots_true_step c cs (fun h' => hc h')]
    refine hasWW_cons_intro (fun d ds hds => ?_) (ih (hasWW_cons_elim h))
    cases cs with
    | nil =>
      rw [show fixDotsGo false [] = [] from rfl] at hds
      cases hds
    | cons c2 cs2 =>
      rcases fixDots_false_head c2 cs2 with ⟨es, hes⟩
      rw [hes] at hds
      injection hds with h1 _
      rw [← h1]
      exact hasWW_cons_pair h
  | case4 rest ih =>
    intro h
    rw [fixDotsGo]
    refine hasWW_cons_nonws (by decide) ?_
    refine hasWW_cons_nonws (by decide) ?_
    refine hasWW_cons_nonws (by decide) ?_
    exact ih (hasWW_cons_elim (hasWW_cons_elim (hasWW_cons_elim h)))
  | case5 c cs hne ih =>
    intro h
    rw [fixDots_fallback c cs (fun rest hcon => hne rest hcon.1 hcon.2)]
    refine hasWW_cons_intro (fun d ds hds => ?_) (ih (hasWW_cons_elim h))
    cases cs with
    | nil =>
      rw [show fixDotsGo false [] = [] from rfl] at hds
      cases hds
    | cons c2 cs2 =>
      rcases fixDots_false_head c2 cs2 with ⟨es, hes⟩
      rw [hes] at hds
      injection hds with h1 _
      rw [← h1]
      exact hasWW_cons_pair h

theorem fixDots_pre_pA (c : Char) (cs : List Char)
    (h : occurs ['â', '€', '™'] (c :: cs) = false) :
    List.isPrefixOf ['â', '€', '™'] (c :: fixDotsGo false cs) = false := by
  by_cases hc : c = 'â'
  · subst hc
    simp only [List.isPrefixOf, beq_self_eq_true, Bool.true_and]
    cases cs with
    | nil => rw [fixDotsGo_nil]; rfl
    | cons c2 cs2 =>
      by_cases h2 : c2 = '€'
      · subst h2
        rw [fixDots_fallback '€' cs2 (fun rest hcon => absurd hcon.1 (by decide))]
        simp only [List.isPrefixOf, beq_self_eq_true, Bool.true_and]
        cases cs2 with
        | nil => rw [fixDotsGo_nil]; rfl
        | cons c3 cs3 =>
          have h3 : c3 ≠ '™' := by
            intro h3
            subst h3
            have hpre := occurs_cons_pre h
            simp [List.isPrefixOf] at hpre
          rcases fixDots_false_head c3 cs3 with ⟨es, hes⟩
          rw [hes]
          simp [List.isPrefixOf, Ne.symm h3]
      · rcases fixDots_false_head c2 cs2 with ⟨es, hes⟩
        rw [hes]
        simp [List.isPrefixOf, Ne.symm h2]
  · simp [List.isPrefixOf, Ne.symm hc]

theorem fixDots_pre_pQ (c : Char) (cs : List Char)
    (h : occurs ['â', '€'] (c :: cs) = false) :
    List.isPrefixOf ['â', '€'] (c :: fixDotsGo false cs) = false := by
  by_cases hc : c = 'â'
  · subst hc
    simp only [List.isPrefixOf, beq_self_eq_true, Bool.true_and]
    cases cs with
    | nil => rw [fixDotsGo_nil]; rfl
    | cons c2 cs2 =>
      have h2 : c2 ≠ '€' := by
        intro h2
        subst h2
        have hpre := occurs_cons_pre h
        simp [List.isPrefixOf] at hpre
      rcases fixDots_false_head c2 cs2 with ⟨es, hes⟩
      rw [hes]
      simp [List.isPrefixOf, Ne.symm h2]
  · simp [List.isPrefixOf, Ne.symm hc]

theorem fixDots_NA : ∀ (b : Bool) (l : List Char), occurs ['â', '€', '™'] l = false →
    occurs ['â', '€', '™'] (fixDotsGo b l) = false := by
  intro b l
  induction b, l using fixDotsGo.induct with
  | case1 b => intro _; rw [fixDotsGo_nil]; rfl
  | case2 cs ih =>
    intro h
    exact ih (occurs_cons_elim h)
  | case3 c cs hc ih =>
    intro h
    rw [fixDots_true_step c cs (fun h' => hc h')]
    exact occurs_cons_intro (fixDots_pre_pA c cs h) (ih (occurs_cons_elim h))
  | case4 rest ih =>
    intro h
    show occurs ['â', '€', '™'] ('.' :: '.' :: '.' :: fixDotsGo true rest) = false
    refine occurs_cons_intro (by simp [List.isPrefixOf]) ?_
    refine occurs_cons_intro (by simp [List.isPrefixOf]) ?_
    refine occurs_cons_intro (by simp [List.isPrefixOf]) ?_
    exact ih (occurs_cons_elim (occurs_cons_elim (occurs_cons_elim h)))
  | case5 c cs hne ih =>
    intro h
    rw [fixDots_fallback c cs (fun rest hcon => hne rest hcon.1 hcon.2)]
    exact occurs_cons_intro (fixDots_pre_pA c cs h) (ih (occurs_cons_elim h))

theorem fixDots_NQ : ∀ (b : Bool) (l : List Char), occurs ['â', '€'] l = false →
    occurs ['â', '€'] (fixDotsGo b l) = false := by
  intro b l
  induction b, l using fixDotsGo.induct with
  | case1 b => intro _; rw [fixDotsGo_nil]; rfl
  | case2 cs ih =>
    intro h
    exact ih (occurs_cons_elim h)
  | case3 c cs hc ih =>
    intro h
    rw [fixDots_true_step c cs (fun h' => hc h')]
    exact occurs_cons_intro (fixDots_pre_pQ c cs h) (ih (occurs_cons_elim h))
  | case4 rest ih =>
    intro h
    show occurs ['â', '€'] ('.' :: '.' :: '.' :: fixDotsGo true rest) = false
    refine occurs_cons_intro (by simp [List.isPrefixOf]) ?_
    refine occurs_cons_intro (by simp [List.isPrefixOf]) ?_
    refine occurs_cons_intro (by simp [List.isPrefixOf]) ?_
    exact ih (occurs_cons_elim (occurs_cons_elim (occurs_cons_elim h)))
  | case5 c cs hne ih =>
    intro h
    rw [fixDots_fallback c cs (fun rest hcon => hne rest hcon.1 hcon.2)]
    exact occurs_cons_intro (fixDots_pre_pQ c cs h) (ih (occurs_cons_elim h))

theorem fixDots_sound : ∀ (b : Bool) (l : List Char),
    occurs ['.', '.', '.', '.'] (fixDotsGo b l) = false := by
  intro b l
  induction b, l using fixDotsGo.induct with
  | case1 b => rw [fixDotsGo_nil]; rfl
  | case2 cs ih => exact ih
  | case3 c cs hc ih =>
    rw [fixDots_true_step c cs (fun h' => hc h')]
    refine occurs_cons_intro ?_ ih
    have hc' : ('.' == c) = false := by
      simp only [beq_eq_false_iff_ne, ne_eq]
      exact fun h' => hc h'.symm
    simp [List.isPrefixOf, hc']
  | case4 rest ih =>
    show occurs ['.', '.', '.', '.'] ('.' :: '.' :: '.' :: fixDotsGo true rest) = false
    have hhead : List.isPrefixOf ['.'] (fixDotsGo true rest) = false ∧
        List.isPrefixOf ['.', '.'] (fixDotsGo true rest) = false ∧
        List.isPrefixOf ['.', '.', '.'] (fixDotsGo true rest) = false := by
      rcases fixDots_true_head rest with h' | ⟨d, ds, hd, hdn⟩
      · rw [h']
        exact ⟨rfl, rfl, rfl⟩
      · rw [hd]
        have : ('.' == d) = false := by
          simp only [beq_eq_false_iff_ne, ne_eq]
          exact fun h' => hdn h'.symm
        simp [List.isPrefixOf, this]
    refine occurs_cons_intro (by simp [List.isPrefixOf, hhead.1]) ?_
    refine occurs_cons_intro (by simp [List.isPrefixOf, hhead.2.1]) ?_
    refine occurs_cons_intro (by simp [List.isPrefixOf, hhead.2.2]) ?_
    exact ih
  | case5 c cs hne ih =>
    rw [fixDots_fallback c cs (fun rest hcon => hne rest hcon.1 hcon.2)]
    refine occurs_cons_intro ?_ ih
    by_cases hc : c = '.'
    · subst hc
      simp only [List.isPrefixOf, beq_self_eq_true, Bool.true_and]
      cases cs with
      | nil => rw [fixDotsGo_nil]; rfl
      | cons c2 cs2 =>
        by_cases h2 : c2 = '.'
        · subst h2
          have hne2 : ∀ r, cs2 ≠ '.' :: r := by
            intro r hr
            exact hne r rfl (by rw [hr])
          rw [fixDots_fallback '.' cs2
            (fun rest hcon => hne2 ('.' :: rest) (by rw [hcon.2]))]
          simp only [List.isPrefixOf, beq_self_eq_true, Bool.true_and]
          cases cs2 with
          | nil => rw [fixDotsGo_nil]; rfl
          | cons c3 cs3 =>
            have h3 : c3 ≠ '.' := fun h3 => hne2 cs3 (by rw [h3])
            rcases fixDots_false_head c3 cs3 with ⟨es, hes⟩
            rw [hes]
            have : ('.' == c3) = false := by
              simp only [beq_eq_false_iff_ne, ne_eq]
              exact fun h' => h3 h'.symm
            simp [List.isPrefixOf, this]
        · rcases fixDots_false_head c2 cs2 with ⟨es, hes⟩
          rw [hes]
          have : ('.' == c2) = false := by
            simp only [beq_eq_false_iff_ne, ne_eq]
            exact fun h' => h2 h'.symm
          simp [List.isPrefixOf, this]
    · have : ('.' == c) = false := by
        simp only [beq_eq_false_iff_ne, ne_eq]
        exact fun h' => hc h'.symm
      simp [List.isPrefixOf, this]

theorem fixDots_id : ∀ (b : Bool) (l : List Char),
    occurs ['.', '.', '.', '.'] l = false →
    (b = true → ∀ d, l.head? = some d → d ≠ '.') →
    fixDotsGo b l = l := by
  intro b l
  induction b, l using fixDotsGo.induct with
  | case1 b => intro _ _; rw [fixDotsGo_nil]
  | case2 cs ih =>
    intro _ hside
    exact absurd rfl (hside rfl '.' rfl)
  | case3 c cs hc ih =>
    intro h hside
    rw [fixDots_true_step c cs (fun h' => hc h'),
      ih (occurs_cons_elim h) (fun hb => absurd hb (by simp))]
  | case4 rest ih =>
    intro h hside
    show '.' :: '.' :: '.' :: fixDotsGo true rest = '.' :: '.' :: '.' :: rest
    have hrest : fixDotsGo true rest = rest := by
      refine ih (occurs_cons_elim (occurs_cons_elim (occurs_cons_elim h))) ?_
      intro _ d hd hdot
      subst hdot
      cases rest with
      | nil => cases hd
      | cons r1 r2 =>
        rw [List.head?_cons, Option.some.injEq] at hd
        have hpre := occurs_cons_pre h
        rw [← hd] at hpre
        simp [List.isPrefixOf] at hpre
    rw [hrest]
  | case5 c cs hne ih =>
    intro h hside
    rw [fixDots_fallback c cs (fun rest hcon => hne rest hcon.1 hcon.2),
      ih (occurs_cons_elim h) (fun hb => absurd hb (by simp))]

/-! ### Claim C3: idempotence of `_clean_text` -/

/-- Claim C3 counterexample: `_clean_text` is not idempotent.  On
`"a [1] b"` the citation `[1]` is removed after whitespace was already
collapsed, leaving the double space `"a  b"`, which a second pass collapses
to `"a b"`. -/
theorem C3_counterexample :
    clean_text (clean_text "a [1] b".data) ≠ clean_text "a [1] b".data := by
  decide

/-- Claim C3 amended: `_clean_text` is idempotent on every input containing
no `[` character (so the citation-removal pass, which runs after whitespace
collapsing and can create double spaces or expose new citation patterns, is
inactive).  On such inputs the output has single-space whitespace only, no
remaining mis-encoded apostrophe or quote sequences, no period run longer
than three, and no surrounding whitespace, so every pass of a second run is
the identity. -/
theorem C3_amended_clean_idempotent (t : List Char) (hbr : '[' ∉ t) :
    clean_text (clean_text t) = clean_text t := by
  have hbrW : '[' ∉ collapseWS t := by
    intro hm
    rcases mem_collapseWSGo false t '[' hm with h' | h'
    · exact absurd h' (by decide)
    · exact hbr h'
  have hrc : removeCites (collapseWS t) = collapseWS t := removeCites_id _ hbrW
  have hy : clean_text t = strip (fixDots (fixQuotes (fixApos (collapseWS t)))) := by
    show strip (fixDots (fixQuotes (fixApos (removeCites (collapseWS t))))) = _
    rw [hrc]
  have hSPw : wsSpace (collapseWS t) = true := collapseWSGo_SP false t
  have hNWw : hasWW (collapseWS t) = false := collapseWSGo_NW false t
  have hSPv : wsSpace (fixApos (collapseWS t)) = true := fixApos_SP _ hSPw
  have hNWv : hasWW (fixApos (collapseWS t)) = false := fixApos_NW _ hNWw
  have hNAv : occurs ['â', '€', '™'] (fixApos (collapseWS t)) = false :=
    fixApos_sound _
  have hSPq : wsSpace (fixQuotes (fixApos (collapseWS t))) = true := fixQuotes_SP _ hSPv
  have hNWq : hasWW (fixQuotes (fixApos (collapseWS t))) = false := fixQuotes_NW _ hNWv
  have hNAq : occurs ['â', '€', '™'] (fixQuotes (fixApos (collapseWS t))) = false :=
    fixQuotes_NA _ hNAv
  have hNQq : occurs ['â', '€'] (fixQuotes (fixApos (collapseWS t))) = false :=
    fixQuotes_sound _
  have hSPx : wsSpace (fixDots (fixQuotes (fixApos (collapseWS t)))) = true :=
    fixDots_SP false _ hSPq
  have hNWx : hasWW (fixDots (fixQuotes (fixApos (collapseWS t)))) = false :=
    fixDots_NW false _ hNWq
  have hNAx : occurs ['â', '€', '™'] (fixDots (fixQuotes (fixApos (collapseWS t)))) = false :=
    fixDots_NA false _ hNAq
  have hNQx : occurs ['â', '€'] (fixDots (fixQuotes (fixApos (collapseWS t)))) = false :=
    fixDots_NQ false _ hNQq
  have hNDx : occurs ['.', '.', '.', '.']
      (fixDots (fixQuotes (fixApos (collapseWS t)))) = false :=
    fixDots_sound false _
  have hSPy : wsSpace (clean_text t) = true := by
    rw [hy, wsSpace_iff]
    intro c hc hw
    exact (wsSpace_iff.mp hSPx) c (strip_subset hc) hw
  have hNWy : hasWW (clean_text t) = false := by
    rw [hy]
    exact noWW_of_infix ( strip_infix _) hNWx
  have hNAy : occurs ['â', '€', '™'] (clean_text t) = false := by
    rw [hy]
    exact noOcc_of_infix ( strip_infix _) hNAx
  have hNQy : occurs ['â', '€'] (clean_text t) = false := by
    rw [hy]
    exact noOcc_of_infix ( strip_infix _) hNQx
  have hNDy : occurs ['.', '.', '.', '.'] (clean_text t) = false := by
    rw [hy]
    exact noOcc_of_infix ( strip_infix _) hNDx
  have hbry : '[' ∉ clean_text t := by
    rw [hy]
    intro hm
    have hm1 := strip_subset hm
    rcases mem_fixDotsGo false _ '[' hm1 with h' | h'
    · exact absurd h' (by decide)
    · rcases mem_fixQuotes _ '[' h' with h'' | h''
      · exact absurd h'' (by decide)
      · rcases mem_fixApos _ '[' h'' with h3 | h3
        · exact absurd h3 (by decide)
        · exact hbrW h3
  have hstry : strip (clean_text t) = clean_text t := by
    rw [hy]
    exact strip_idem _
  have hW2 : collapseWS (clean_text t) = clean_text t := collapseWS_id _ hSPy hNWy
  have hRC2 : removeCites (clean_text t) = clean_text t := removeCites_id _ hbry
  have hA2 : fixApos (clean_text t) = clean_text t := fixApos_id _ hNAy
  have hQ2 : fixQuotes (clean_text t) = clean_text t := fixQuotes_id _ hNQy
  have hD2 : fixDots (clean_text t) = clean_text t :=
    fixDots_id false _ hNDy (fun hb => absurd hb (by simp))
  calc clean_text (clean_text t)
      = strip (fixDots (fixQuotes (fixApos (removeCites (collapseWS (clean_text t)))))) :=
        rfl
    _ = clean_text t := by rw [hW2, hRC2, hA2, hQ2, hD2, hstry]

theorem C3_amended_clean_idempotent_witness :
    ('[' ∉ "hello  world, how are you.".data) ∧
    clean_text (clean_text "hello  world, how are you.".data) =
      clean_text "hello  world, how are you.".data :=
  ⟨by decide, C3_amended_clean_idempotent "hello  world, how are you.".data (by decide)⟩

end ChromaSetup
